import Mathlib

/-!
Verification of the Phoenix chunk-deduplicated file-synchronisation system.

The definitions below are a shallow embedding of the Rust sources:
* `src/server/db/mod.rs` — the storage engine (`Db::add_file`, `Db::add_chunk`,
  `Db::rm_file`, `rc_merge`) over the five sled trees;
* `src/messaging/mod.rs` and `src/messaging/arguments/mod.rs` — the message
  codec (`MessageBuilder::encode_message` / `decode_message` and the
  per-argument `to_bin` / `from_bin` functions);
* `src/server/mod.rs` — the server session dispatch (`handle_client_msg`);
* `src/client/actor/handlers.rs` and `src/client/utils.rs` — the client event
  handlers and `write_chunk`.

Modelling conventions:
* Machine integers are `Nat`, reduced `% 2^w` exactly where the Rust code
  wraps (`rc_merge` stores `(x as i32 + inc).to_le_bytes()`, i.e. the value
  modulo `2^32`).
* Byte strings are `List Nat` (each element a byte value).
* sled trees are key-value maps; they are modelled as association lists with
  `tget` / `tins` / `trem`.  `tins` prepends after erasing the key and `trem`
  erases the key; no verified operation observes iteration order, so the
  key-ordering of sled is irrelevant here.
* `bincode` (an external crate) satisfies `deserialize ∘ serialize = id`; the
  tables therefore store `FileMetadata` values directly in place of their
  serialized bytes.
* Rust panics (out-of-range slice indexing, `unwrap`, explicit `panic!`) are
  a distinct decoder outcome `DecodeResult.panicked`, kept separate from the
  `Err` results the decoders return deliberately.
-/

namespace Phoenix

/-! ## Big-endian byte encodings -/

/-- Big-endian encoding of `n` into exactly `w` bytes, as in Rust's
`to_be_bytes` (the value is reduced modulo `2 ^ (8 * w)`). -/
def beBytes : Nat → Nat → List Nat
| 0, _ => []
| w + 1, n => beBytes w (n / 256) ++ [n % 256]

/-- Big-endian decoding of a byte list, as in Rust's `from_be_bytes`. -/
def fromBe (l : List Nat) : Nat := l.foldl (fun acc b => acc * 256 + b) 0

theorem beBytes_length (w n : Nat) : (beBytes w n).length = w := by
induction w generalizing n with
| zero => rfl
| succ w ih => simp [beBytes, ih]

theorem fromBe_append_single (l : List Nat) (b : Nat) :
    fromBe (l ++ [b]) = fromBe l * 256 + b := by
simp [fromBe, List.foldl_append]

theorem fromBe_beBytes (w n : Nat) : fromBe (beBytes w n) = n % 256 ^ w := by
induction w generalizing n with
| zero => simp [beBytes, fromBe, Nat.mod_one]
| succ w ih =>
  rw [beBytes, fromBe_append_single, ih]
  have h : (256 : Nat) ^ (w + 1) = 256 * 256 ^ w := by ring
  rw [h, Nat.mod_mul]
  ring

theorem fromBe_beBytes_of_lt {w n : Nat} (h : n < 256 ^ w) :
    fromBe (beBytes w n) = n := by
rw [fromBe_beBytes, Nat.mod_eq_of_lt h]

/-! ## Tables

sled `Tree`s are key→value maps.  Keys are byte strings (`List Nat`).  The
three operations used by the engine are `get`, `insert` and `remove`. -/

/-- A key→value table (association list). -/
abbrev Table (β : Type) := List (List Nat × β)

/-- Rust `Tree::get`. -/
def tget {β : Type} : Table β → List Nat → Option β
| [], _ => none
| (k, v) :: rest, key => if k = key then some v else tget rest key

/-- Erase a key (helper for `tins`; also `Tree::remove`). -/
def trem {β : Type} (t : Table β) (key : List Nat) : Table β :=
t.filter (fun e => e.1 ≠ key)

/-- Rust `Tree::insert` (map semantics: at most one entry per key). -/
def tins {β : Type} (t : Table β) (key : List Nat) (v : β) : Table β :=
(key, v) :: trem t key

theorem tget_trem {β : Type} (t : Table β) (key k : List Nat) :
    tget (trem t key) k = if key = k then none else tget t k := by
induction t with
| nil => simp [trem, tget]
| cons e rest ih =>
  by_cases he : e.1 = key
  · by_cases hk : key = k <;> simp_all [trem, tget, List.filter]
  · by_cases hk : e.1 = k
    · have : ¬ key = k := fun h => he (hk.trans h.symm)
      simp_all [trem, tget, List.filter]
    · simp_all [trem, tget, List.filter]

theorem tget_tins_self {β : Type} (t : Table β) (key : List Nat) (v : β) :
    tget (tins t key v) key = some v := by
simp [tins, tget]

theorem tget_tins_ne {β : Type} (t : Table β) (key k : List Nat) (v : β)
    (h : key ≠ k) : tget (tins t key v) k = tget t k := by
simp [tins, tget, h, tget_trem]

theorem tget_trem_self {β : Type} (t : Table β) (key : List Nat) :
    tget (trem t key) key = none := by
simp [tget_trem]

theorem tget_trem_ne {β : Type} (t : Table β) (key k : List Nat)
    (h : key ≠ k) : tget (trem t key) k = tget t k := by
simp [tget_trem, h]

/-- A table with no entry for `key` is unchanged by erasing `key`. -/
theorem trem_eq_of_tget_none {β : Type} {t : Table β} {key : List Nat}
    (h : tget t key = none) : trem t key = t := by
induction t with
| nil => rfl
| cons e rest ih =>
  by_cases he : e.1 = key
  · simp [tget, he] at h
  · simp [tget, he] at h
    simp [trem, List.filter, he] at ih ⊢
    exact ih h

/-! ## Data model (`src/messaging/arguments/mod.rs`)

`ChunkId(pub Vec<u8>)` is a 32-byte digest; `FileId` is a relative path plus a
32-byte whole-file digest.  Paths are the UTF-8 bytes of the Rust `PathBuf`. -/

/-- Rust `ChunkId`: the raw digest bytes. -/
abbrev ChunkId := List Nat

/-- Rust `FileId { path: PathBuf, hash: [u8; 32] }`. -/
structure FileId where
  path : List Nat
  hash : List Nat
deriving DecidableEq

/-- Rust `FileMetadata` (file id, display name, POSIX mode, timestamps, ordered
chunk sequence). -/
structure FileMetadata where
  file_id : FileId
  file_name : List Nat
  permissions : Nat
  modified : Nat
  created : Nat
  chunks : List ChunkId
deriving DecidableEq

/-- The hand-written `PartialEq for FileMetadata`: timestamps are excluded. -/
def FileMetadata.rustEq (a b : FileMetadata) : Bool :=
decide (a.file_id = b.file_id ∧ a.file_name = b.file_name ∧
  a.permissions = b.permissions ∧ a.chunks = b.chunks)

/-- Rust `Chunk { id: ChunkId, data: Vec<u8> }`. -/
structure Chunk where
  id : ChunkId
  data : List Nat
deriving DecidableEq

/-! ## Storage engine (`src/server/db/mod.rs`) -/

/-- The five sled trees of `struct Db`.  `chunk_count` values are the u32
read back from the stored 4 little-endian bytes; `missing_chunks` values are
the deserialized `Vec<String>` of referencing paths. -/
structure Db where
  file_table : Table FileMetadata
  chunk_table : Table (List Nat)
  chunk_count : Table Nat
  pending_table : Table FileMetadata
  missing_chunks : Table (List (List Nat))
deriving DecidableEq

/-- A freshly created database: all five trees empty. -/
def emptyDb : Db := ⟨[], [], [], [], []⟩

/-- Rust `DbError` (`src/server/db/error.rs`); only the variant the verified
operations produce is needed. -/
inductive DbError
| DuplicateFile
deriving DecidableEq

/-- Rust `rc_merge`: read the old 4-byte little-endian u32 (0 when absent), add
`increment` with two's-complement wrapping, store 4 bytes back — i.e. the
result is the sum modulo `2 ^ 32`. -/
def rc_merge (old_value : Option Nat) (increment : Int) : Nat :=
(((old_value.getD 0 : Int) + increment).emod (2 ^ 32)).toNat

/-- One iteration of `add_file`'s `chunks_to_remove` loop: decrement the
refcount; on reaching zero delete the chunk from `chunk_table` and
`chunk_count`. -/
def rcDecStep (cc : Table Nat) (ct : Table (List Nat)) (c : ChunkId) :
    Table Nat × Table (List Nat) :=
let count := rc_merge (tget cc c) (-1)
let cc1 := tins cc c count
if count = 0 then (trem cc1 c, trem ct c) else (cc1, ct)

/-- Rust `old_chunks.difference(&new_chunks)`: the distinct chunks of the old file
absent from the new one.  `HashSet` iteration order is arbitrary and the
per-chunk effects touch distinct keys, so first-occurrence order is fixed. -/
def chunksToRemove (old new : List ChunkId) : List ChunkId :=
old.dedup.filter (fun c => ¬ c ∈ new)

/-- Rust `new_chunks.difference(&old_chunks)`: the distinct chunks of the new file
absent from the old one. -/
def chunksToAdd (old new : List ChunkId) : List ChunkId :=
new.dedup.filter (fun c => ¬ c ∈ old)

/-- The `for chunk in insert_chunks` loop of `add_file`: increment the
refcount of every chunk (once per occurrence); for each chunk not yet in
`chunk_table`, record it as missing (appending `path` to its
`missing_chunks` reference list) and push it onto the returned list. -/
def insertRefs (ct : Table (List Nat)) (path : List Nat) :
    Table Nat × Table (List (List Nat)) × List ChunkId → List ChunkId →
    Table Nat × Table (List (List Nat)) × List ChunkId
| st, [] => st
| (cc, mc, acc), c :: rest =>
  let cc1 := tins cc c (rc_merge (tget cc c) 1)
  match tget ct c with
  | some _ => insertRefs ct path (cc1, mc, acc) rest
  | none =>
    let ref_files := (tget mc c).getD []
    insertRefs ct path (cc1, tins mc c (ref_files ++ [path]), acc ++ [c]) rest

/-- The tail of `add_file`: if no chunk is missing insert the metadata into
`file_table`, otherwise into `pending_table`; return the missing list. -/
def finishAdd (s : Db) (path : List Nat) (file : FileMetadata)
    (ct : Table (List Nat)) (cc : Table Nat) (mc : Table (List (List Nat)))
    (new_chunks : List ChunkId) : List ChunkId × Db :=
if new_chunks = [] then
  (new_chunks, ⟨tins s.file_table path file, ct, cc, s.pending_table, mc⟩)
else
  (new_chunks, ⟨s.file_table, ct, cc, tins s.pending_table path file, mc⟩)

/-- Rust `Db::add_file`. -/
def add_file (s : Db) (file : FileMetadata) :
    Except DbError (List ChunkId × Db) :=
let path := file.file_id.path
match tget s.file_table path with
| some old_file =>
  if FileMetadata.rustEq old_file file then .error .DuplicateFile
  else
    let p := (chunksToRemove old_file.chunks file.chunks).foldl
      (fun (p : Table Nat × Table (List Nat)) c => rcDecStep p.1 p.2 c)
      (s.chunk_count, s.chunk_table)
    let insert_chunks := chunksToAdd old_file.chunks file.chunks
    let r := insertRefs p.2 path (p.1, s.missing_chunks, []) insert_chunks
    .ok (finishAdd s path file p.2 r.1 r.2.1 r.2.2)
| none =>
  let r := insertRefs s.chunk_table path
    (s.chunk_count, s.missing_chunks, []) file.chunks
  .ok (finishAdd s path file s.chunk_table r.1 r.2.1 r.2.2)

/-- The `for file in files` loop of `add_chunk`: the first referenced path
still in `pending_table` none of whose chunks remain missing is moved to
`file_table` and its `FileId` returned (the loop then aborts). -/
def findCompleteLoop (mc : Table (List (List Nat)))
    (pt ft : Table FileMetadata) :
    List (List Nat) → Option FileId × Table FileMetadata × Table FileMetadata
| [] => (none, pt, ft)
| f :: rest =>
  match tget pt f with
  | none => findCompleteLoop mc pt ft rest
  | some md =>
    if md.chunks.all (fun c => (tget mc c).isNone) then
      (some md.file_id, trem pt f, tins ft f md)
    else findCompleteLoop mc pt ft rest

/-- Rust `Db::add_chunk`: a no-op unless the chunk is in `missing_chunks`;
otherwise persist the bytes, delete the `missing_chunks` entry and scan the
saved reference list for a completed pending file. -/
def add_chunk (s : Db) (chunk : Chunk) : Option FileId × Db :=
match tget s.missing_chunks chunk.id with
| none => (none, s)
| some files =>
  let ct := tins s.chunk_table chunk.id chunk.data
  let mc := trem s.missing_chunks chunk.id
  let r := findCompleteLoop mc s.pending_table s.file_table files
  (r.1, ⟨r.2.2, ct, s.chunk_count, r.2.1, mc⟩)

/-- One iteration of `rm_file`'s chunk loop: counts `0` and `1` delete the
`chunk_table` and `chunk_count` entries, larger counts are decremented, an
absent count is skipped. -/
def rmChunkStep (p : Table (List Nat) × Table Nat) (c : ChunkId) :
    Table (List Nat) × Table Nat :=
match tget p.2 c with
| none => p
| some x => if x ≤ 1 then (trem p.1 c, trem p.2 c) else (p.1, tins p.2 c (x - 1))

/-- Rust `Db::rm_file` (the argument is the `FilePath` newtype's string bytes). -/
def rm_file (s : Db) (file_path : List Nat) : Db :=
match tget s.file_table file_path with
| none => s
| some file =>
  let p := file.chunks.foldl rmChunkStep (s.chunk_table, s.chunk_count)
  { s with chunk_table := p.1, chunk_count := p.2,
           file_table := trem s.file_table file_path }

/-- Rust `Db::get_file`: `file_table` only. -/
def get_file (s : Db) (file : List Nat) : Option FileMetadata :=
tget s.file_table file

/-! ## Occurrence counting (for the refcount invariant) -/

/-- Occurrences of chunk `c` across the chunk sequences of a metadata table,
counted with multiplicity. -/
def occIn (c : ChunkId) (t : Table FileMetadata) : Nat :=
(t.map (fun e => e.2.chunks.count c)).sum

/-- Occurrences of `c` across `file_table` and `pending_table` combined. -/
def occAll (c : ChunkId) (s : Db) : Nat :=
occIn c s.file_table + occIn c s.pending_table

/-! ## Basic lemmas about the engine helpers -/

theorem rc_merge_one (o : Option Nat) :
    rc_merge o 1 = (o.getD 0 + 1) % 2 ^ 32 := by
unfold rc_merge
have h : ((o.getD 0 : Int) + 1) = ((o.getD 0 + 1 : Nat) : Int) := by push_cast; ring
rw [h]
have h2 : ((o.getD 0 + 1 : Nat) : Int).emod ((2 : Int) ^ 32) =
    (((o.getD 0 + 1) % 2 ^ 32 : Nat) : Int) := by push_cast; rfl
rw [h2, Int.toNat_natCast]

/-- The `insert_chunks` loop leaves `chunk_count` untouched at chunks that do
not occur in the list, and adds the occurrence count (mod `2^32`) at chunks
that do. -/
theorem insertRefs_cc (ct : Table (List Nat)) (path : List Nat)
    (l : List ChunkId) (cc : Table Nat) (mc : Table (List (List Nat)))
    (acc : List ChunkId) (c : ChunkId) :
    tget (insertRefs ct path (cc, mc, acc) l).1 c =
      if l.count c = 0 then tget cc c
      else some (((tget cc c).getD 0 + l.count c) % 2 ^ 32) := by
induction l generalizing cc mc acc with
| nil => simp [insertRefs]
| cons a rest ih =>
  have hbody : ∀ mc1 acc1,
      tget (insertRefs ct path
        (tins cc a (rc_merge (tget cc a) 1), mc1, acc1) rest).1 c =
      if rest.count c = 0 then tget (tins cc a (rc_merge (tget cc a) 1)) c
      else some (((tget (tins cc a (rc_merge (tget cc a) 1)) c).getD 0 +
        rest.count c) % 2 ^ 32) := fun mc1 acc1 => ih _ mc1 acc1
  have hmain :
      tget (insertRefs ct path (cc, mc, acc) (a :: rest)).1 c =
      if rest.count c = 0 then tget (tins cc a (rc_merge (tget cc a) 1)) c
      else some (((tget (tins cc a (rc_merge (tget cc a) 1)) c).getD 0 +
        rest.count c) % 2 ^ 32) := by
    rcases hct : tget ct a with _ | v
    · simp only [insertRefs, hct]
      exact hbody _ _
    · simp only [insertRefs, hct]
      exact hbody _ _
  rw [hmain]
  by_cases hca : a = c
  · subst hca
    have hcnt : (a :: rest).count a = rest.count a + 1 := by
      simp [List.count_cons]
    have hget : tget (tins cc a (rc_merge (tget cc a) 1)) a =
        some (((tget cc a).getD 0 + 1) % 2 ^ 32) := by
      rw [tget_tins_self, rc_merge_one]
    by_cases hr : rest.count a = 0
    · simp [hr, hcnt, hget]
    · rw [if_neg hr, hget, hcnt, if_neg (by omega : ¬ rest.count a + 1 = 0)]
      simp only [Option.getD_some]
      rw [Nat.mod_add_mod, Nat.add_assoc, Nat.add_comm 1]
  · have hget : tget (tins cc a (rc_merge (tget cc a) 1)) c = tget cc c :=
      tget_tins_ne cc a c _ hca
    have hcnt : (a :: rest).count c = rest.count c := by
      simp [List.count_cons, hca]
    rw [hget, hcnt]

/-- The `insert_chunks` loop returns one missing entry per occurrence of a
chunk absent from `chunk_table` (which the loop never modifies). -/
theorem insertRefs_missing (ct : Table (List Nat)) (path : List Nat)
    (l : List ChunkId) (cc : Table Nat) (mc : Table (List (List Nat)))
    (acc : List ChunkId) :
    (insertRefs ct path (cc, mc, acc) l).2.2 =
      acc ++ l.filter (fun c => (tget ct c).isNone) := by
induction l generalizing cc mc acc with
| nil => simp [insertRefs]
| cons a rest ih =>
  rcases hct : tget ct a with _ | v
  · simp only [insertRefs, hct]
    rw [ih]
    simp [List.filter_cons, hct]
  · simp only [insertRefs, hct]
    rw [ih]
    simp [List.filter_cons, hct]

/-! ## Key sets and occurrence sums -/

/-- Each key appears at most once (holds for every table built by
`tins` / `trem` from the empty table). -/
def nkeys {β : Type} (t : Table β) : Prop := (t.map Prod.fst).Nodup

theorem nkeys_nil {β : Type} : nkeys ([] : Table β) := List.nodup_nil

theorem nkeys_trem {β : Type} {t : Table β} (h : nkeys t) (k : List Nat) :
    nkeys (trem t k) := by
exact List.Nodup.sublist (List.Sublist.map Prod.fst (List.filter_sublist t)) h

theorem keys_trem_not_mem {β : Type} (t : Table β) (k : List Nat) :
    k ∉ (trem t k).map Prod.fst := by
intro hmem
rcases List.mem_map.mp hmem with ⟨e, he, hek⟩
rcases List.mem_filter.mp he with ⟨_, hne⟩
exact (by simpa [hek] using hne)

theorem nkeys_tins {β : Type} {t : Table β} (h : nkeys t) (k : List Nat)
    (v : β) : nkeys (tins t k v) := by
refine List.Nodup.cons ?_ (nkeys_trem h k)
exact fun hmem => keys_trem_not_mem t k (by simpa using hmem)

theorem tget_eq_none_of_not_mem {β : Type} {t : Table β} {k : List Nat}
    (h : k ∉ t.map Prod.fst) : tget t k = none := by
induction t with
| nil => rfl
| cons e rest ih =>
  simp only [List.map_cons, List.mem_cons, not_or] at h
  have h1 : ¬ e.1 = k := fun he => h.1 he.symm
  simp [tget, h1, ih h.2]

theorem occIn_nil (c : ChunkId) : occIn c [] = 0 := rfl

theorem occIn_tins (c : ChunkId) (t : Table FileMetadata) (p : List Nat)
    (md : FileMetadata) :
    occIn c (tins t p md) = md.chunks.count c + occIn c (trem t p) := by
simp [occIn, tins]

theorem occIn_trem_of_none {t : Table FileMetadata} {p : List Nat}
    (h : tget t p = none) (c : ChunkId) : occIn c (trem t p) = occIn c t := by
rw [trem_eq_of_tget_none h]

/-- Removing the (unique) entry at `p` subtracts exactly its contribution. -/
theorem occIn_trem_add {t : Table FileMetadata} {p : List Nat}
    {md : FileMetadata} (hn : nkeys t) (h : tget t p = some md) (c : ChunkId) :
    occIn c (trem t p) + md.chunks.count c = occIn c t := by
induction t with
| nil => simp [tget] at h
| cons e rest ih =>
  rcases List.nodup_cons.mp hn with ⟨hne, hnr⟩
  by_cases hep : e.1 = p
  · have hmd : e.2 = md := by simpa [tget, hep] using h
    have hrest : tget rest p = none := by
      apply tget_eq_none_of_not_mem
      rw [← hep]; exact hne
    have hrr : trem rest p = rest := trem_eq_of_tget_none hrest
    have hcond : (decide (e.1 ≠ p)) = false := by simp [hep]
    have htrem : trem (e :: rest) p = rest := by
      simp only [trem, List.filter_cons, hcond, Bool.false_eq_true, if_false]
      simpa only [trem] using hrr
    rw [htrem, ← hmd]
    simp [occIn, Nat.add_comm]
  · have hrest : tget rest p = some md := by simpa [tget, hep] using h
    have : trem (e :: rest) p = e :: trem rest p := by
      simp [trem, List.filter_cons, hep]
    rw [this]
    simp only [occIn, List.map_cons, List.sum_cons]
    have := ih hnr hrest
    simp only [occIn] at this
    omega

theorem count_ne_zero_of_mem {a : ChunkId} {l : List ChunkId}
    (h : a ∈ l) : l.count a ≠ 0 := by
induction l with
| nil => cases h
| cons b rest ih =>
  by_cases hab : a = b
  · subst hab
    have h1 : (a :: rest).count a = rest.count a + 1 := by
      simp [List.count_cons]
    omega
  · have h1 : (b :: rest).count a = rest.count a := by
      simp [List.count_cons, fun hh => hab (hh : a = b)]
    have h2 : a ∈ rest := by
      rcases List.mem_cons.mp h with h3 | h3
      · exact absurd h3 hab
      · exact h3
    rw [h1]
    exact ih h2

/-! ## `rm_file` chunk-loop characterization -/

/-- The `rm_file` chunk loop keeps `chunk_table` empty when it was empty. -/
theorem rmFold_ct_nil (l : List ChunkId) (cc : Table Nat) :
    (l.foldl rmChunkStep ([], cc)).1 = [] := by
induction l generalizing cc with
| nil => rfl
| cons a rest ih =>
  show (rest.foldl rmChunkStep (rmChunkStep ([], cc) a)).1 = []
  rcases h : tget cc a with _ | x
  · simpa [rmChunkStep, h] using ih cc
  · by_cases hx : x ≤ 1
    · simpa [rmChunkStep, h, hx, trem] using ih (trem cc a)
    · simpa [rmChunkStep, h, hx] using ih (tins cc a (x - 1))

/-- The `rm_file` chunk loop subtracts one per occurrence from each refcount,
deleting entries that reach zero, provided each stored count is at least the
number of occurrences being removed. -/
theorem rmFold_cc (l : List ChunkId) (ct : Table (List Nat)) (cc : Table Nat)
    (f : ChunkId → Nat)
    (hcc : ∀ c, tget cc c = if f c = 0 then none else some (f c))
    (hle : ∀ c, l.count c ≤ f c) (c : ChunkId) :
    tget (l.foldl rmChunkStep (ct, cc)).2 c =
      if f c - l.count c = 0 then none else some (f c - l.count c) := by
induction l generalizing ct cc f with
| nil => simpa using hcc c
| cons a rest ih =>
  have hcnt_a : (a :: rest).count a = rest.count a + 1 := by
    simp [List.count_cons]
  have hfa : 1 ≤ f a := by
    have h := hle a
    rw [hcnt_a] at h
    omega
  have hget : tget cc a = some (f a) := by
    rw [hcc a, if_neg (by omega)]
  by_cases hx : f a ≤ 1
  · have hfa1 : f a = 1 := by omega
    have hstep : rmChunkStep (ct, cc) a = (trem ct a, trem cc a) := by
      simp [rmChunkStep, hget, hx]
    have hra : rest.count a = 0 := by
      have h := hle a
      rw [hcnt_a] at h
      omega
    have hcc1 : ∀ d, tget (trem cc a) d =
        if (if d = a then 0 else f d) = 0 then none
        else some (if d = a then 0 else f d) := by
      intro d
      by_cases hda : d = a
      · subst hda; simp [tget_trem_self]
      · rw [tget_trem_ne _ _ _ (fun h => hda h.symm)]
        simp only [if_neg hda]
        exact hcc d
    have hle1 : ∀ d, rest.count d ≤ if d = a then 0 else f d := by
      intro d
      by_cases hda : d = a
      · subst hda; simp [hra]
      · have h1 := hle d
        have h2 : (d :: rest).count d = rest.count d + 1 := by
          simp [List.count_cons]
        have h3 : (a :: rest).count d = rest.count d := by
          simp [List.count_cons, fun h => hda (h : d = a)]
        simp only [if_neg hda]
        omega
    have hmain := ih (trem ct a) (trem cc a) _ hcc1 hle1
    show tget ((rest.foldl rmChunkStep (rmChunkStep (ct, cc) a))).2 c = _
    rw [hstep, hmain]
    by_cases hca : c = a
    · subst hca
      simp [hra, hcnt_a, hfa1]
    · have h3 : (a :: rest).count c = rest.count c := by
        simp [List.count_cons, fun h => hca (h : c = a)]
      simp only [if_neg hca, h3]
  · have hstep : rmChunkStep (ct, cc) a = (ct, tins cc a (f a - 1)) := by
      simp [rmChunkStep, hget, hx]
    have hcc1 : ∀ d, tget (tins cc a (f a - 1)) d =
        if (if d = a then f a - 1 else f d) = 0 then none
        else some (if d = a then f a - 1 else f d) := by
      intro d
      by_cases hda : d = a
      · subst hda
        rw [tget_tins_self]
        simp only [eq_self_iff_true, if_true]
        rw [if_neg (by omega)]
      · rw [tget_tins_ne _ _ _ _ (fun h => hda h.symm)]
        simp only [if_neg hda]
        exact hcc d
    have hle1 : ∀ d, rest.count d ≤ if d = a then f a - 1 else f d := by
      intro d
      by_cases hda : d = a
      · subst hda
        have h1 := hle d
        rw [hcnt_a] at h1
        simp only [eq_self_iff_true, if_true]
        omega
      · have h1 := hle d
        have h3 : (a :: rest).count d = rest.count d := by
          simp [List.count_cons, fun h => hda (h : d = a)]
        simp only [if_neg hda]
        omega
    have hmain := ih ct (tins cc a (f a - 1)) _ hcc1 hle1
    show tget ((rest.foldl rmChunkStep (rmChunkStep (ct, cc) a))).2 c = _
    rw [hstep, hmain]
    by_cases hca : c = a
    · subst hca
      simp only [eq_self_iff_true, if_true, hcnt_a]
      have h4 : f c - 1 - rest.count c = f c - (rest.count c + 1) := by omega
      rw [h4]
    · have h3 : (a :: rest).count c = rest.count c := by
        simp [List.count_cons, fun h => hca (h : c = a)]
      simp only [if_neg hca, h3]

/-- Rust `add_file` on a path not in `file_table` takes the fresh branch. -/
theorem add_file_fresh (s : Db) (file : FileMetadata)
    (h : tget s.file_table file.file_id.path = none) :
    add_file s file =
      .ok (finishAdd s file.file_id.path file s.chunk_table
        (insertRefs s.chunk_table file.file_id.path
          (s.chunk_count, s.missing_chunks, []) file.chunks).1
        (insertRefs s.chunk_table file.file_id.path
          (s.chunk_count, s.missing_chunks, []) file.chunks).2.1
        (insertRefs s.chunk_table file.file_id.path
          (s.chunk_count, s.missing_chunks, []) file.chunks).2.2) := by
simp only [add_file, h]

/-! ## Refcount soundness (claim C1) -/

/-- Reachability by `add_file` / `rm_file` sequences in which every
`add_file` targets a path in neither `file_table` nor `pending_table` and
never pushes a chunk's total occurrence count to `2^32`. -/
inductive FreshSeq : Db → Prop
| base : FreshSeq emptyDb
| addf {s : Db} {file : FileMetadata} {l : List ChunkId} {s' : Db} :
    FreshSeq s →
    tget s.file_table file.file_id.path = none →
    tget s.pending_table file.file_id.path = none →
    (∀ c : ChunkId, occAll c s + file.chunks.count c < 2 ^ 32) →
    add_file s file = .ok (l, s') →
    FreshSeq s'
| rmf {s : Db} (p : List Nat) : FreshSeq s → FreshSeq (rm_file s p)

/-- The inductive invariant: `chunk_table` stays empty (no `add_chunk` in
the sequence), every `chunk_count` entry is exactly the occurrence count,
and the metadata tables have unique keys. -/
def RefInv (s : Db) : Prop :=
s.chunk_table = [] ∧
(∀ c : ChunkId, tget s.chunk_count c =
  if occAll c s = 0 then none else some (occAll c s)) ∧
nkeys s.file_table ∧ nkeys s.pending_table

theorem refInv_empty : RefInv emptyDb := by
refine ⟨rfl, fun c => rfl, nkeys_nil, nkeys_nil⟩

theorem refInv_add_file {s : Db} {file : FileMetadata} {l : List ChunkId}
    {s' : Db} (hinv : RefInv s)
    (hft : tget s.file_table file.file_id.path = none)
    (hpt : tget s.pending_table file.file_id.path = none)
    (hbound : ∀ c : ChunkId, occAll c s + file.chunks.count c < 2 ^ 32)
    (heq : add_file s file = .ok (l, s')) : RefInv s' := by
obtain ⟨hct, hcc, hnf, hnp⟩ := hinv
rw [add_file_fresh s file hft] at heq
have hM2 : (insertRefs s.chunk_table file.file_id.path
    (s.chunk_count, s.missing_chunks, []) file.chunks).2.2 = file.chunks := by
  rw [insertRefs_missing, hct]
  simp [tget]
by_cases hch : file.chunks = []
· have hM : insertRefs s.chunk_table file.file_id.path
      (s.chunk_count, s.missing_chunks, []) file.chunks =
      (s.chunk_count, s.missing_chunks, []) := by
    rw [hch]
    rfl
  rw [hM] at heq
  simp only [finishAdd, eq_self_iff_true, if_true, Except.ok.injEq,
    Prod.mk.injEq] at heq
  obtain ⟨hl, hs'⟩ := heq
  subst hs'
  refine ⟨hct, ?_, nkeys_tins hnf _ _, hnp⟩
  intro c
  have hocc : occAll c (⟨tins s.file_table file.file_id.path file,
      s.chunk_table, s.chunk_count, s.pending_table, s.missing_chunks⟩ : Db) =
      occAll c s := by
    simp only [occAll, occIn_tins, trem_eq_of_tget_none hft]
    rw [hch]
    simp [occAll]
  rw [hocc]
  exact hcc c
· rw [finishAdd, hM2, if_neg hch] at heq
  simp only [Except.ok.injEq, Prod.mk.injEq] at heq
  obtain ⟨hl, hs'⟩ := heq
  subst hs'
  refine ⟨hct, ?_, hnf, nkeys_tins hnp _ _⟩
  intro c
  have hocc : occAll c (⟨s.file_table, s.chunk_table,
      (insertRefs s.chunk_table file.file_id.path
        (s.chunk_count, s.missing_chunks, []) file.chunks).1,
      tins s.pending_table file.file_id.path file,
      (insertRefs s.chunk_table file.file_id.path
        (s.chunk_count, s.missing_chunks, []) file.chunks).2.1⟩ : Db) =
      occAll c s + file.chunks.count c := by
    simp only [occAll, occIn_tins, trem_eq_of_tget_none hpt]
    omega
  rw [hocc]
  show tget (insertRefs s.chunk_table file.file_id.path
      (s.chunk_count, s.missing_chunks, []) file.chunks).1 c = _
  rw [insertRefs_cc]
  by_cases hcnt : file.chunks.count c = 0
  · rw [if_pos hcnt, hcnt, Nat.add_zero]
    exact hcc c
  · rw [if_neg hcnt]
    have hgetD : (tget s.chunk_count c).getD 0 = occAll c s := by
      rw [hcc c]
      by_cases h0 : occAll c s = 0
      · simp [h0]
      · simp [h0]
    rw [hgetD, Nat.mod_eq_of_lt (hbound c),
      if_neg (by omega : ¬ occAll c s + file.chunks.count c = 0)]

theorem refInv_rm_file {s : Db} (hinv : RefInv s) (p : List Nat) :
    RefInv (rm_file s p) := by
obtain ⟨hct, hcc, hnf, hnp⟩ := hinv
rcases hmd : tget s.file_table p with _ | md
· unfold rm_file
  rw [hmd]
  exact ⟨hct, hcc, hnf, hnp⟩
· have hle : ∀ c : ChunkId, md.chunks.count c ≤ occAll c s := by
    intro c
    have h1 := occIn_trem_add hnf hmd c
    unfold occAll
    omega
  have hocc : ∀ c : ChunkId, occAll c (rm_file s p) =
      occAll c s - md.chunks.count c := by
    intro c
    have h1 := occIn_trem_add hnf hmd c
    unfold rm_file
    rw [hmd]
    simp only [occAll]
    omega
  have hcc2 : ∀ c : ChunkId, tget (rm_file s p).chunk_count c =
      if occAll c s - md.chunks.count c = 0 then none
      else some (occAll c s - md.chunks.count c) := by
    intro c
    unfold rm_file
    rw [hmd]
    exact rmFold_cc md.chunks s.chunk_table s.chunk_count (fun d => occAll d s)
      hcc hle c
  have hct2 : (rm_file s p).chunk_table = [] := by
    unfold rm_file
    rw [hmd, hct]
    exact rmFold_ct_nil md.chunks s.chunk_count
  have hnf2 : nkeys (rm_file s p).file_table := by
    unfold rm_file
    rw [hmd]
    exact nkeys_trem hnf p
  have hnp2 : nkeys (rm_file s p).pending_table := by
    unfold rm_file
    rw [hmd]
    exact hnp
  refine ⟨hct2, ?_, hnf2, hnp2⟩
  intro c
  rw [hcc2 c, hocc c]

theorem freshSeq_refInv {s : Db} (h : FreshSeq s) : RefInv s := by
induction h with
| base => exact refInv_empty
| addf hseq hft hpt hbound heq ih => exact refInv_add_file ih hft hpt hbound heq
| rmf p hseq ih => exact refInv_rm_file ih p

/-! ## `add_chunk` characterization (claims C3, C5, C10) -/

/-- A referenced path completes the transfer: it is still in
`pending_table` and none of its chunks remains in `missing_chunks`. -/
def pendingDone (pt : Table FileMetadata) (mc : Table (List (List Nat)))
    (f : List Nat) : Bool :=
match tget pt f with
| none => false
| some md => md.chunks.all (fun c => (tget mc c).isNone)

/-- Section 4.2.2 of the specification, stated in its own words: persist the chunk,
delete its `missing_chunks` entry, and move the first completed referenced
pending file (if any) to `file_table`, returning its `FileId`. -/
def addChunkSpec (s : Db) (chunk : Chunk) (files : List (List Nat)) :
    Option FileId × Db :=
let ct := tins s.chunk_table chunk.id chunk.data
let mc := trem s.missing_chunks chunk.id
match files.find? (fun f => pendingDone s.pending_table mc f) with
| none => (none, ⟨s.file_table, ct, s.chunk_count, s.pending_table, mc⟩)
| some f =>
  match tget s.pending_table f with
  | none => (none, ⟨s.file_table, ct, s.chunk_count, s.pending_table, mc⟩)
  | some md =>
    (some md.file_id,
      ⟨tins s.file_table f md, ct, s.chunk_count, trem s.pending_table f, mc⟩)

/-- The reference-list loop returns the first path satisfying
`pendingDone`, moving exactly that entry from `pending_table` to
`file_table`. -/
theorem findCompleteLoop_eq (mc : Table (List (List Nat)))
    (pt ft : Table FileMetadata) (files : List (List Nat)) :
    findCompleteLoop mc pt ft files =
      match files.find? (fun f => pendingDone pt mc f) with
      | none => (none, pt, ft)
      | some f =>
        match tget pt f with
        | none => (none, pt, ft)
        | some md => (some md.file_id, trem pt f, tins ft f md) := by
induction files with
| nil => rfl
| cons f0 rest ih =>
  rcases hp : tget pt f0 with _ | md
  · have hpd : pendingDone pt mc f0 = false := by
      simp [pendingDone, hp]
    rw [List.find?_cons_of_neg _ (by simp [hpd])]
    simp only [findCompleteLoop, hp]
    exact ih
  · rcases hall : md.chunks.all (fun c => (tget mc c).isNone) with _ | _
    · have hpd : pendingDone pt mc f0 = false := by
        simp [pendingDone, hp, hall]
      rw [List.find?_cons_of_neg _ (by simp [hpd])]
      simp only [findCompleteLoop, hp, hall, Bool.false_eq_true, if_false]
      exact ih
    · have hpd : pendingDone pt mc f0 = true := by
        simp [pendingDone, hp, hall]
      rw [List.find?_cons_of_pos _ (by simp [hpd])]
      simp only [findCompleteLoop, hp, hall, if_true]

/-- Rust `add_chunk` on a missing chunk agrees with the specification-side
description `addChunkSpec`. -/
theorem add_chunk_spec_eq (s : Db) (chunk : Chunk) (files : List (List Nat))
    (h : tget s.missing_chunks chunk.id = some files) :
    add_chunk s chunk = addChunkSpec s chunk files := by
unfold add_chunk addChunkSpec
simp only [h]
rw [findCompleteLoop_eq]
rcases hf : files.find? (fun f =>
    pendingDone s.pending_table (trem s.missing_chunks chunk.id) f) with _ | f
· simp only [hf]
· rcases hp : tget s.pending_table f with _ | md
  · simp only [hf, hp]
  · simp only [hf, hp]

/-- C3 (completion detection): when the incoming chunk is missing, `add_chunk`
persists its bytes, deletes the `missing_chunks` entry, and moves the first
referenced pending file with no remaining missing chunk from `pending_table`
to `file_table`, returning its `FileId`; otherwise it returns none. -/
theorem C3_completion_detection (s : Db) (chunk : Chunk)
    (files : List (List Nat))
    (h : tget s.missing_chunks chunk.id = some files) :
    add_chunk s chunk = addChunkSpec s chunk files :=
add_chunk_spec_eq s chunk files h

/-- C5 (orphan resistance): a chunk with no `missing_chunks` entry is a
silent no-op — `add_chunk` returns none and the state (all five tables) is
unchanged. -/
theorem C5_orphan_resistance (s : Db) (chunk : Chunk)
    (h : tget s.missing_chunks chunk.id = none) :
    add_chunk s chunk = (none, s) := by
unfold add_chunk
rw [h]

/-- C10 (frame property): `add_chunk` never changes `chunk_count`, for every
state and every input chunk — its transaction covers only the other four
tables. -/
theorem C10_add_chunk_frame (s : Db) (chunk : Chunk) :
    (add_chunk s chunk).2.chunk_count = s.chunk_count := by
unfold add_chunk
rcases tget s.missing_chunks chunk.id with _ | files <;> rfl

/-- C1 (refcount soundness, amended): in any `add_file`/`rm_file` sequence
from the empty engine whose `add_file` calls all target fresh paths (and
keep counts below `2^32`), every `chunk_count` entry equals the number of
occurrences of its chunk across `file_table` and `pending_table`. -/
theorem C1_refcount_soundness {s : Db} (h : FreshSeq s) (c : ChunkId)
    (v : Nat) (hv : tget s.chunk_count c = some v) : v = occAll c s := by
have hinv := (freshSeq_refInv h).2.1 c
rw [hv] at hinv
by_cases h0 : occAll c s = 0
· rw [if_pos h0] at hinv
  cases hinv
· rw [if_neg h0] at hinv
  exact Option.some.inj hinv

/-! ## Fresh-path `add_file` characterization (claims C2, C4, C6) -/

/-- Full description of `add_file` on a path absent from `file_table`: the
returned missing list has one entry per occurrence of a chunk absent from
`chunk_table`; `chunk_table` is untouched; every chunk's refcount grows by
its occurrence count (mod `2^32`); the metadata lands in `file_table` when
nothing is missing and in `pending_table` otherwise. -/
theorem add_file_fresh_parts {s : Db} {file : FileMetadata}
    {l : List ChunkId} {s' : Db}
    (hft : tget s.file_table file.file_id.path = none)
    (heq : add_file s file = .ok (l, s')) :
    l = file.chunks.filter (fun c => (tget s.chunk_table c).isNone) ∧
    s'.chunk_table = s.chunk_table ∧
    (∀ c : ChunkId, tget s'.chunk_count c =
      if file.chunks.count c = 0 then tget s.chunk_count c
      else some (((tget s.chunk_count c).getD 0 + file.chunks.count c)
        % 2 ^ 32)) ∧
    s'.file_table = (if l = [] then tins s.file_table file.file_id.path file
      else s.file_table) ∧
    s'.pending_table = (if l = [] then s.pending_table
      else tins s.pending_table file.file_id.path file) := by
rw [add_file_fresh s file hft] at heq
have hmiss : (insertRefs s.chunk_table file.file_id.path
    (s.chunk_count, s.missing_chunks, []) file.chunks).2.2 =
    file.chunks.filter (fun c => (tget s.chunk_table c).isNone) := by
  rw [insertRefs_missing]
  rfl
have hcc : ∀ c : ChunkId, tget (insertRefs s.chunk_table file.file_id.path
    (s.chunk_count, s.missing_chunks, []) file.chunks).1 c =
    if file.chunks.count c = 0 then tget s.chunk_count c
    else some (((tget s.chunk_count c).getD 0 + file.chunks.count c)
      % 2 ^ 32) := fun c => insertRefs_cc _ _ _ _ _ _ c
unfold finishAdd at heq
by_cases hm : (insertRefs s.chunk_table file.file_id.path
    (s.chunk_count, s.missing_chunks, []) file.chunks).2.2 = []
· rw [if_pos hm] at heq
  simp only [Except.ok.injEq, Prod.mk.injEq] at heq
  obtain ⟨hl, hs'⟩ := heq
  subst hs'
  rw [← hl]
  refine ⟨hmiss, rfl, hcc, ?_, ?_⟩
  · rw [if_pos hm]
  · rw [if_pos hm]
· rw [if_neg hm] at heq
  simp only [Except.ok.injEq, Prod.mk.injEq] at heq
  obtain ⟨hl, hs'⟩ := heq
  subst hs'
  rw [← hl]
  refine ⟨hmiss, rfl, hcc, ?_, ?_⟩
  · rw [if_neg hm]
  · rw [if_neg hm]

/-- The tables `add_chunk` may change: either nothing moves, or exactly one
pending entry moves from `pending_table` to `file_table`. -/
theorem add_chunk_tables (s : Db) (chunk : Chunk) :
    ((add_chunk s chunk).2.file_table = s.file_table ∧
     (add_chunk s chunk).2.pending_table = s.pending_table) ∨
    (∃ f md, tget s.pending_table f = some md ∧
     (add_chunk s chunk).2.file_table = tins s.file_table f md ∧
     (add_chunk s chunk).2.pending_table = trem s.pending_table f) := by
rcases hmc : tget s.missing_chunks chunk.id with _ | files
· have he : add_chunk s chunk = (none, s) := by
    unfold add_chunk
    rw [hmc]
  rw [he]
  exact Or.inl ⟨rfl, rfl⟩
· rw [add_chunk_spec_eq s chunk files hmc]
  unfold addChunkSpec
  rcases hf : files.find? (fun f =>
      pendingDone s.pending_table (trem s.missing_chunks chunk.id) f)
    with _ | f
  · simp [hf]
  · rcases hp : tget s.pending_table f with _ | md
    · simp [hf, hp]
    · simp only [hf, hp]
      exact Or.inr ⟨f, md, hp, rfl, rfl⟩

/-! ## Exclusivity (claim C2) -/

/-- Reachability by engine operations whose `add_file` calls all target
paths in neither `file_table` nor `pending_table`. -/
inductive OpSeq : Db → Prop
| base : OpSeq emptyDb
| addf {s : Db} {file : FileMetadata} {l : List ChunkId} {s' : Db} :
    OpSeq s →
    tget s.file_table file.file_id.path = none →
    tget s.pending_table file.file_id.path = none →
    add_file s file = .ok (l, s') →
    OpSeq s'
| addc {s : Db} (chunk : Chunk) : OpSeq s → OpSeq (add_chunk s chunk).2
| rmf {s : Db} (p : List Nat) : OpSeq s → OpSeq (rm_file s p)

theorem opSeq_excl {s : Db} (h : OpSeq s) (p : List Nat) :
    tget s.file_table p = none ∨ tget s.pending_table p = none := by
induction h generalizing p with
| base => exact Or.inl rfl
| @addf s file l s' hseq hft hpt heq ih =>
  obtain ⟨hl, hct, hcc, hf, hp⟩ := add_file_fresh_parts hft heq
  by_cases hpath : file.file_id.path = p
  · subst hpath
    by_cases hle : l = []
    · rw [hp, if_pos hle]
      exact Or.inr hpt
    · rw [hf, if_neg hle]
      exact Or.inl hft
  · rw [hf, hp]
    by_cases hle : l = [] <;>
      simp only [hle, if_true, if_false, eq_self_iff_true] <;>
      rw [tget_tins_ne _ _ _ _ hpath] <;> exact ih p
| @addc s chunk hseq ih =>
  rcases add_chunk_tables s chunk with ⟨hf, hp⟩ | ⟨f, md, hpf, hf, hp⟩
  · rw [hf, hp]; exact ih p
  · rw [hf, hp]
    by_cases hfp : f = p
    · subst hfp
      exact Or.inr (tget_trem_self _ _)
    · rw [tget_tins_ne _ _ _ _ hfp, tget_trem_ne _ _ _ hfp]
      exact ih p
| @rmf s p0 hseq ih =>
  unfold rm_file
  rcases hmd : tget s.file_table p0 with _ | md
  · exact ih p
  · by_cases hp0 : p0 = p
    · subst hp0
      exact Or.inl (tget_trem_self _ _)
    · rw [tget_trem_ne _ _ _ hp0]
      exact ih p

/-- C2 (exclusivity, amended): (a) in any operation sequence from the empty
engine whose `add_file` calls all target fresh paths, every path is a key of
at most one of `file_table` / `pending_table`; (b) an `add_file` that
computes an empty missing set inserts the metadata into `file_table` and
leaves `pending_table` exactly as it was (pending entries are removed only
by `add_chunk` completion, not by `add_file`). -/
theorem C2_exclusivity :
    (∀ s : Db, OpSeq s → ∀ p : List Nat,
      tget s.file_table p = none ∨ tget s.pending_table p = none) ∧
    (∀ (s : Db) (file : FileMetadata) (s' : Db),
      tget s.file_table file.file_id.path = none →
      add_file s file = .ok ([], s') →
      s'.pending_table = s.pending_table ∧
      tget s'.file_table file.file_id.path = some file) := by
constructor
· exact fun s h p => opSeq_excl h p
· intro s file s' hft heq
  obtain ⟨hl, hct, hcc, hf, hp⟩ := add_file_fresh_parts hft heq
  simp only [eq_self_iff_true, if_true] at hf hp
  exact ⟨hp, by rw [hf, tget_tins_self]⟩

/-- C4 (idempotent re-announce, amended): for a metadata whose path is in
neither table and with at least one chunk absent from `chunk_table`, the
first `add_file` returns a non-empty missing list; the immediate second call
does NOT fail with `DuplicateFile` — it returns the same missing list again
and increments the refcount of every chunk once per occurrence. -/
theorem C4_idempotent_reannounce {s : Db} {file : FileMetadata}
    (hft : tget s.file_table file.file_id.path = none)
    (hpt : tget s.pending_table file.file_id.path = none)
    (hmiss : ∃ c, c ∈ file.chunks ∧ tget s.chunk_table c = none) :
    ∃ l s₁ s₂, add_file s file = .ok (l, s₁) ∧ l ≠ [] ∧
      add_file s₁ file = .ok (l, s₂) ∧
      (∀ c ∈ file.chunks, tget s₂.chunk_count c =
        some (((tget s₁.chunk_count c).getD 0 + file.chunks.count c)
          % 2 ^ 32)) := by
obtain ⟨c0, hc0mem, hc0⟩ := hmiss
rcases h1 : add_file s file with e | p
· rw [add_file_fresh s file hft] at h1
  cases h1
· obtain ⟨hl, hct, hcc, hf, hp⟩ := add_file_fresh_parts hft h1
  have hlne : p.1 ≠ [] := by
    rw [hl]
    intro hnil
    have hmem : c0 ∈ file.chunks.filter
        (fun c => (tget s.chunk_table c).isNone) :=
      List.mem_filter.mpr ⟨hc0mem, by rw [hc0]; rfl⟩
    rw [hnil] at hmem
    cases hmem
  have hft1 : tget p.2.file_table file.file_id.path = none := by
    rw [hf, if_neg hlne]
    exact hft
  rcases h2 : add_file p.2 file with e | q
  · rw [add_file_fresh p.2 file hft1] at h2
    cases h2
  · obtain ⟨hl2, hct2, hcc2, hf2, hp2⟩ := add_file_fresh_parts hft1 h2
    have hq1 : q.1 = p.1 := by
      rw [hl2, hct, ← hl]
    refine ⟨p.1, p.2, q.2,
      congrArg Except.ok Prod.mk.eta.symm, hlne, ?_, ?_⟩
    · rw [← hq1]
      exact h2.trans (congrArg Except.ok Prod.mk.eta.symm)
    · intro c hcmem
      rw [hcc2 c]
      have hcne := count_ne_zero_of_mem hcmem
      split
      next h0 => exact (hcne h0).elim
      next h0 => rfl

/-! ## Server session (`src/server/mod.rs`, claim C6) -/

/-- Rust `QualifiedChunkId { path: FileId, offset: u32, id: ChunkId }`. -/
structure QualifiedChunkId where
  path : FileId
  offset : Nat
  id : ChunkId
deriving DecidableEq

/-- The wire effects of `handle_client_msg`'s `SendFile` arm. -/
inductive ServerOut
| requestChunk (q : QualifiedChunkId)
| broadcastFile (md : FileMetadata)
deriving DecidableEq

/-- The `Directive::SendFile` arm of `handle_client_msg`: call `add_file`;
broadcast the metadata when the missing list is empty; then send one
`RequestChunk` per element of the missing list, with `offset = (i *
CHUNK_SIZE) as u32` for the element's index `i`.  `DuplicateFile` aborts the
transaction (state unchanged) and sends nothing. -/
def handleSendFileMsg (chunkSize : Nat) (s : Db) (metadata : FileMetadata) :
    Db × List ServerOut :=
match add_file s metadata with
| .error .DuplicateFile => (s, [])
| .ok (missing, s') =>
  (s', (if missing.length = 0 then [ServerOut.broadcastFile metadata]
    else []) ++
    missing.enum.map (fun ic =>
      ServerOut.requestChunk ⟨metadata.file_id, (ic.1 * chunkSize) % 2 ^ 32,
        ic.2⟩))

/-- C6 (amended): on an empty engine, announcing a file whose chunk sequence
is `[c, c]` makes `add_file` return the missing list `[c, c]` — the chunk
once per occurrence, not once per distinct id — and the server answers with
TWO `RequestChunk` messages for `c`, at offsets `0` and `CHUNK_SIZE`. -/
theorem C6_duplicate_chunk_requests (chunkSize : Nat) (meta : FileMetadata)
    (c : ChunkId) (hch : meta.chunks = [c, c]) :
    ∃ s', add_file emptyDb meta = .ok ([c, c], s') ∧
      (handleSendFileMsg chunkSize emptyDb meta).2 =
        [ServerOut.requestChunk ⟨meta.file_id, 0, c⟩,
         ServerOut.requestChunk ⟨meta.file_id, chunkSize % 2 ^ 32, c⟩] := by
rcases h1 : add_file emptyDb meta with e | p
· rw [add_file_fresh emptyDb meta rfl] at h1
  cases h1
· obtain ⟨hl, hct, hcc, hf, hp⟩ := add_file_fresh_parts (by rfl) h1
  have hl2 : p.1 = [c, c] := by
    rw [hl, hch]
    rfl
  refine ⟨p.2, ?_, ?_⟩
  · rw [← hl2]
  · unfold handleSendFileMsg
    simp only [h1]
    rw [hl2]
    simp [List.enum, List.enumFrom]

/-! ## Concrete engine states for counterexamples and witnesses -/

/-- The engine state after a (successful) `add_file`. -/
def dbAfter (s : Db) (file : FileMetadata) : Db :=
match add_file s file with
| .ok r => r.2
| .error _ => s

def pA : List Nat := [97]

def pB : List Nat := [98]

def hash0 : List Nat := List.replicate 32 0

def cid7 : ChunkId := List.replicate 32 7

def cid9 : ChunkId := List.replicate 32 9

/-- Rust `a` with the single chunk `cid7`. -/
def metaA7 : FileMetadata := ⟨⟨pA, hash0⟩, pA, 420, 1, 2, [cid7]⟩

/-- Rust `a` with chunk sequence `[cid7, cid7]`. -/
def metaA77 : FileMetadata := ⟨⟨pA, hash0⟩, pA, 420, 1, 2, [cid7, cid7]⟩

/-- Rust `a` with no chunks. -/
def metaANil : FileMetadata := ⟨⟨pA, hash0⟩, pA, 420, 1, 2, []⟩

/-- Rust `a` with the single chunk `cid9`. -/
def metaA9 : FileMetadata := ⟨⟨pA, hash0⟩, pA, 420, 1, 2, [cid9]⟩

def sA7 : Db := dbAfter emptyDb metaA7

def sA7A7 : Db := dbAfter sA7 metaA7

def sANil : Db := dbAfter emptyDb metaANil

def sANilA9 : Db := dbAfter sANil metaA9

/-- C1 as stated is false: after `add_file(metaA7)` twice (the second call
is accepted because the duplicate check consults only `file_table` and the
path is still pending), `chunk_count[cid7]` stores 2 while `cid7` occurs
once across `file_table ∪ pending_table`. -/
theorem C1_refcount_soundness_cex :
    tget sA7A7.chunk_count cid7 = some 2 ∧ occAll cid7 sA7A7 = 1 := by
constructor
· decide
· decide

/-- C1 witness: after one fresh `add_file` the invariant holds — the theorem
applied at `sA7` gives `chunk_count[cid7] = 1 =` occurrence count. -/
theorem C1_refcount_soundness_witness : 1 = occAll cid7 sA7 := by
have hb : ∀ c : ChunkId, occAll c emptyDb + metaA7.chunks.count c < 2 ^ 32 := by
  intro c
  have h1 : occAll c emptyDb = 0 := rfl
  have h2 : metaA7.chunks.count c ≤ 1 := by
    show ([cid7] : List ChunkId).count c ≤ 1
    rw [List.count_cons, List.count_nil]
    split <;> omega
  omega
exact C1_refcount_soundness
  (FreshSeq.addf FreshSeq.base rfl rfl hb (by rfl)) cid7 1 (by decide)

/-- C2 as stated is false: `add_file(metaANil)` puts `a` in `file_table`;
the update `add_file(metaA9)` then inserts the new metadata into
`pending_table` without removing the `file_table` entry, so `a` is a key of
both tables. -/
theorem C2_exclusivity_cex :
    (tget sANilA9.file_table pA).isSome = true ∧
    (tget sANilA9.pending_table pA).isSome = true := by
constructor
· decide
· decide

/-- C2 witness: exclusivity at the empty engine, and part (b) applied to the
chunkless metadata (empty missing set, `pending_table` untouched). -/
theorem C2_exclusivity_witness :
    (tget emptyDb.file_table pA = none ∨ tget emptyDb.pending_table pA = none)
    ∧ (sANil.pending_table = emptyDb.pending_table ∧
       tget sANil.file_table metaANil.file_id.path = some metaANil) :=
⟨C2_exclusivity.1 emptyDb OpSeq.base pA,
 C2_exclusivity.2 emptyDb metaANil sANil rfl (by rfl)⟩

/-- C3 witness: at `sA7` the chunk `cid7` is missing with reference list
`[pA]`; `add_chunk` agrees with the specification description. -/
theorem C3_completion_detection_witness :
    tget sA7.missing_chunks cid7 = some [pA] ∧
    add_chunk sA7 ⟨cid7, [5, 5]⟩ = addChunkSpec sA7 ⟨cid7, [5, 5]⟩ [pA] :=
⟨by decide, C3_completion_detection sA7 ⟨cid7, [5, 5]⟩ [pA] (by decide)⟩

/-- C4 as stated is false: the second `add_file(metaA7)` does not fail with
`DuplicateFile` — it returns the missing list `[cid7]` again and bumps
`chunk_count[cid7]` from 1 to 2. -/
theorem C4_idempotent_reannounce_cex :
    (add_file sA7 metaA7).toOption.map (fun r => r.1) = some [cid7] ∧
    tget sA7.chunk_count cid7 = some 1 ∧
    tget sA7A7.chunk_count cid7 = some 2 := by
refine ⟨?_, ?_, ?_⟩ <;> decide

/-- C4 witness: the amended statement applied to `metaA7` on the empty
engine. -/
theorem C4_idempotent_reannounce_witness :
    ∃ l s₁ s₂, add_file emptyDb metaA7 = .ok (l, s₁) ∧ l ≠ [] ∧
      add_file s₁ metaA7 = .ok (l, s₂) ∧
      (∀ c ∈ metaA7.chunks, tget s₂.chunk_count c =
        some (((tget s₁.chunk_count c).getD 0 + metaA7.chunks.count c)
          % 2 ^ 32)) :=
C4_idempotent_reannounce rfl rfl ⟨cid7, by decide, rfl⟩

/-- C5 witness: an unrequested chunk is dropped by the empty engine. -/
theorem C5_orphan_resistance_witness :
    add_chunk emptyDb ⟨cid9, [1, 2]⟩ = (none, emptyDb) :=
C5_orphan_resistance emptyDb ⟨cid9, [1, 2]⟩ rfl

/-- C6 as stated is false: `SendFile` of `[cid7, cid7]` on the empty engine
elicits TWO `RequestChunk` messages (offsets 0 and 1024), not one; the
missing list contains `cid7` twice. -/
theorem C6_duplicate_chunk_requests_cex :
    (handleSendFileMsg 1024 emptyDb metaA77).2 =
      [ServerOut.requestChunk ⟨metaA77.file_id, 0, cid7⟩,
       ServerOut.requestChunk ⟨metaA77.file_id, 1024, cid7⟩] ∧
    (handleSendFileMsg 1024 emptyDb metaA77).2.length ≠ 1 ∧
    (add_file emptyDb metaA77).toOption.map (fun r => r.1.count cid7) =
      some 2 := by
refine ⟨?_, ?_, ?_⟩ <;> decide

/-- C6 witness: the amended statement applied to `metaA77`. -/
theorem C6_duplicate_chunk_requests_witness :
    ∃ s', add_file emptyDb metaA77 = .ok ([cid7, cid7], s') ∧
      (handleSendFileMsg 1024 emptyDb metaA77).2 =
        [ServerOut.requestChunk ⟨metaA77.file_id, 0, cid7⟩,
         ServerOut.requestChunk ⟨metaA77.file_id, 1024 % 2 ^ 32, cid7⟩] :=
C6_duplicate_chunk_requests 1024 metaA77 cid7 rfl

/-! ## Client event loop (`src/client/actor/handlers.rs`,
`src/client/utils.rs`, claim C9)

The filesystem is an external collaborator: reading a file's metadata and
recomputing its digest are oracles passed in as arguments; what is verified
is the Blacklist discipline of the handlers. -/

/-- The client's outgoing messages (what each handler sends). -/
inductive ClientOut
| sendFileInfo (p : List Nat)
| deleteFile (rel : List Nat)
| requestChunk (q : QualifiedChunkId)
deriving DecidableEq

/-- Rust `Blacklist = HashMap<PathBuf, FileMetadata>` keyed by relative path. -/
abbrev Blacklist := Table FileMetadata

/-- Rust `notify::DebouncedEvent`. -/
inductive DebouncedEvent
| noticeWrite (p : List Nat)
| noticeRemove (p : List Nat)
| create (p : List Nat)
| write (p : List Nat)
| chmod (p : List Nat)
| remove (p : List Nat)
| rename (src p : List Nat)
| rescan
| fsError
deriving DecidableEq

/-- Rust `Path::strip_prefix`, modelled bytewise on the path bytes (Rust strips
by components; events inside the watched subtree behave identically). -/
def stripPfx (base p : List Nat) : Option (List Nat) :=
if base.isPrefixOf p then some (p.drop base.length) else none

/-- Rust `handle_fs_event`: create/write/chmod/rename events send the file's
metadata (`send_file_info`) unless the stripped path is a Blacklist key;
remove events send `DeleteFile`; other events are ignored.  `none` models
the panic of `strip_prefix(..).unwrap()` on a path outside the watch root. -/
def handle_fs_event (watch_path : List Nat) (blacklist : Blacklist)
    (event : DebouncedEvent) : Option (List ClientOut) :=
match event with
| .rename _ p | .create p | .write p | .chmod p =>
  match stripPfx watch_path p with
  | none => none
  | some rel =>
    if (tget blacklist rel).isSome then some []
    else some [ClientOut.sendFileInfo p]
| .remove p =>
  match stripPfx watch_path p with
  | none => none
  | some rel => some [ClientOut.deleteFile rel]
| _ => some []

/-- The `Directive::SendFile` arm of `handle_server_event`: insert the path
into the Blacklist (before any bytes are written), then request every chunk
at `offset = (i * CHUNK_SIZE) as u32`. -/
def handle_sendfile_event (chunkSize : Nat) (blacklist : Blacklist)
    (file_md : FileMetadata) : Blacklist × List ClientOut :=
(tins blacklist file_md.file_id.path file_md,
 file_md.chunks.enum.map (fun ic =>
   ClientOut.requestChunk ⟨file_md.file_id, (ic.1 * chunkSize) % 2 ^ 32,
     ic.2⟩))

/-- Rust `QualifiedChunk { id: QualifiedChunkId, data: Vec<u8> }`. -/
structure QualifiedChunk where
  id : QualifiedChunkId
  data : List Nat
deriving DecidableEq

/-- Rust `write_chunk`: open/seek/write (failure = `none`, Blacklist untouched);
then, if the target path is blacklisted and the recomputed whole-file digest
(`fsDigest`, the oracle for `FileId::new(..).hash` after the write) equals
the advertised hash, remove the Blacklist entry. -/
def write_chunk (fsDigest : Option (List Nat)) (blacklist : Blacklist)
    (chunk : QualifiedChunk) : Option Blacklist :=
match fsDigest with
| none => none
| some digest =>
  match tget blacklist chunk.id.path.path with
  | some x =>
    if digest = x.file_id.hash
    then some (trem blacklist chunk.id.path.path)
    else some blacklist
  | none => some blacklist

/-- C9 (blacklist suppression): (a) a debounced create/write/chmod/rename
event for a path whose stripped form is a Blacklist key produces no outgoing
message; (b) the `SendFile` handler installs the entry (the path maps to the
advertised metadata in the resulting Blacklist); (c) `write_chunk` removes
the entry exactly when the recomputed on-disk digest equals the advertised
`FileId` hash, and keeps it otherwise. -/
theorem C9_blacklist_suppression :
    (∀ (watch_path : List Nat) (bl : Blacklist) (p rel : List Nat)
      (ev : DebouncedEvent),
      (ev = .create p ∨ ev = .write p ∨ ev = .chmod p ∨
        ∃ src, ev = .rename src p) →
      stripPfx watch_path p = some rel →
      (tget bl rel).isSome →
      handle_fs_event watch_path bl ev = some []) ∧
    (∀ (chunkSize : Nat) (bl : Blacklist) (md : FileMetadata),
      tget (handle_sendfile_event chunkSize bl md).1 md.file_id.path =
        some md) ∧
    (∀ (digest : List Nat) (bl : Blacklist) (qc : QualifiedChunk)
      (x : FileMetadata), tget bl qc.id.path.path = some x →
      write_chunk (some digest) bl qc =
        some (if digest = x.file_id.hash
          then trem bl qc.id.path.path else bl)) := by
refine ⟨?_, ?_, ?_⟩
· intro watch_path bl p rel ev hev hstrip hbl
  have hif : (if (tget bl rel).isSome then some ([] : List ClientOut)
      else some [ClientOut.sendFileInfo p]) = some [] := by
    rw [if_pos hbl]
  rcases hev with h | h | h | ⟨src, h⟩ <;> subst h <;>
    simp only [handle_fs_event, hstrip] <;> exact hif
· intro chunkSize bl md
  exact tget_tins_self bl md.file_id.path md
· intro digest bl qc x hx
  unfold write_chunk
  simp only [hx]
  by_cases hd : digest = x.file_id.hash
  · rw [if_pos hd, if_pos hd]
  · rw [if_neg hd, if_neg hd]

/-- C9 witness: the three parts at concrete inputs — a `Write` event for the
blacklisted path `a` is dropped; the `SendFile` handler installs `a`; a
`write_chunk` whose recomputed digest equals the advertised hash removes the
entry. -/
theorem C9_blacklist_suppression_witness :
    handle_fs_event [] [(pA, metaA7)] (.write pA) = some [] ∧
    tget (handle_sendfile_event 1024 [] metaA7).1 metaA7.file_id.path =
      some metaA7 ∧
    write_chunk (some hash0) [(pA, metaA7)]
        ⟨⟨⟨pA, hash0⟩, 0, cid7⟩, [3]⟩ =
      some (if hash0 = metaA7.file_id.hash
        then trem [(pA, metaA7)] pA else [(pA, metaA7)]) :=
⟨C9_blacklist_suppression.1 [] [(pA, metaA7)] pA pA (.write pA)
  (Or.inr (Or.inl rfl)) (by decide) (by decide),
 C9_blacklist_suppression.2.1 1024 [] metaA7,
 C9_blacklist_suppression.2.2 hash0 [(pA, metaA7)]
  ⟨⟨⟨pA, hash0⟩, 0, cid7⟩, [3]⟩ metaA7 (by decide)⟩

/-! ## Message codec (`src/messaging/mod.rs`,
`src/messaging/arguments/mod.rs`, claims C7 and C8)

Decoders return `DecodeResult`: `ok`, `err` (the `Err(Error(..))` values the
Rust code returns deliberately; the message strings are dropped) or
`panicked` (out-of-range slice indexing, failed `unwrap`, explicit
`panic!`). -/

/-- Continuation byte `0x80..=0xBF`. -/
def utf8Cont (b : Nat) : Bool := decide (0x80 ≤ b ∧ b ≤ 0xBF)

/-- Rust `String::from_utf8` validity (RFC 3629 byte patterns). -/
def validUtf8 : List Nat → Bool
| [] => true
| b :: rest =>
  if b ≤ 0x7F then validUtf8 rest
  else if 0xC2 ≤ b ∧ b ≤ 0xDF then
    match rest with
    | b1 :: r => utf8Cont b1 && validUtf8 r
    | [] => false
  else if b = 0xE0 then
    match rest with
    | b1 :: b2 :: r =>
      decide (0xA0 ≤ b1 ∧ b1 ≤ 0xBF) && utf8Cont b2 && validUtf8 r
    | _ => false
  else if (0xE1 ≤ b ∧ b ≤ 0xEC) ∨ b = 0xEE ∨ b = 0xEF then
    match rest with
    | b1 :: b2 :: r => utf8Cont b1 && utf8Cont b2 && validUtf8 r
    | _ => false
  else if b = 0xED then
    match rest with
    | b1 :: b2 :: r =>
      decide (0x80 ≤ b1 ∧ b1 ≤ 0x9F) && utf8Cont b2 && validUtf8 r
    | _ => false
  else if b = 0xF0 then
    match rest with
    | b1 :: b2 :: b3 :: r =>
      decide (0x90 ≤ b1 ∧ b1 ≤ 0xBF) && utf8Cont b2 && utf8Cont b3 &&
        validUtf8 r
    | _ => false
  else if 0xF1 ≤ b ∧ b ≤ 0xF3 then
    match rest with
    | b1 :: b2 :: b3 :: r =>
      utf8Cont b1 && utf8Cont b2 && utf8Cont b3 && validUtf8 r
    | _ => false
  else if b = 0xF4 then
    match rest with
    | b1 :: b2 :: b3 :: r =>
      decide (0x80 ≤ b1 ∧ b1 ≤ 0x8F) && utf8Cont b2 && utf8Cont b3 &&
        validUtf8 r
    | _ => false
  else false

/-- Rust `Path::file_name().unwrap()`: the last non-empty, non-`.` component,
none when it is `..` or there is no component (`/` = byte 47, `.` = 46). -/
def fileNameOf (path : List Nat) : Option (List Nat) :=
match ((path.splitOn 47).filter
    (fun c => !(c == [] || c == [46]))).getLast? with
| none => none
| some c => if c = [46, 46] then none else some c

/-- Decoder outcome: a value, a returned `Err`, or a Rust panic. -/
inductive DecodeResult (α : Type)
| ok (a : α)
| err
| panicked
deriving DecidableEq

def DecodeResult.map {α β : Type} (f : α → β) :
    DecodeResult α → DecodeResult β
| .ok a => .ok (f a)
| .err => .err
| .panicked => .panicked

/-- Rust `impl Argument for FileId`: raw path bytes then the 32 hash bytes. -/
def FileId.to_bin (f : FileId) : List Nat := f.path ++ f.hash

/-- Rust `FileId::from_bin`: length and UTF-8 failures are returned errors. -/
def FileId.from_bin (data : List Nat) : DecodeResult FileId :=
if data.length < 32 then .err
else if validUtf8 (data.take (data.length - 32)) then
  .ok ⟨data.take (data.length - 32), data.drop (data.length - 32)⟩
else .err

/-- Rust `impl Argument for QualifiedChunkId`. -/
def QualifiedChunkId.to_bin (q : QualifiedChunkId) : List Nat :=
beBytes 4 (FileId.to_bin q.path).length ++ (FileId.to_bin q.path ++
  (beBytes 4 q.offset ++ q.id))

/-- Rust `QualifiedChunkId::from_bin`: unchecked slicing panics on truncation. -/
def QualifiedChunkId.from_bin (data : List Nat) :
    DecodeResult QualifiedChunkId :=
if data.length < 4 then .panicked
else
  let str_size := fromBe (data.take 4)
  if data.length < 4 + str_size then .panicked
  else
    match FileId.from_bin ((data.drop 4).take str_size) with
    | .err => .err
    | .panicked => .panicked
    | .ok fid =>
      if data.length < 8 + str_size then .panicked
      else .ok ⟨fid, fromBe ((data.drop (4 + str_size)).take 4),
        data.drop (8 + str_size)⟩

/-- Rust `impl Argument for FileMetadata` (encode). -/
def FileMetadata.to_bin (m : FileMetadata) : List Nat :=
beBytes 8 m.file_id.path.length ++ (m.file_id.path ++
  (beBytes 4 m.permissions ++ (beBytes 16 m.modified ++
  (beBytes 16 m.created ++ (m.file_id.hash ++ m.chunks.flatten)))))

/-- The trailing 32-byte chunk-id walk of `FileMetadata::from_bin` (the last
piece may be shorter and is taken as-is). -/
def parseChunks (bs : List Nat) : List (List Nat) :=
if bs.length = 0 then []
else if bs.length < 32 then [bs]
else bs.take 32 :: parseChunks (bs.drop 32)
termination_by bs.length
decreasing_by
  simp only [List.length_drop]
  omega

/-- Rust `FileMetadata::from_bin`: all failures (short buffer, invalid UTF-8,
missing file name) are panics (`copy_from_slice`, `unwrap`). -/
def FileMetadata.from_bin (data : List Nat) : DecodeResult FileMetadata :=
if data.length < 8 then .panicked
else
  let plen := fromBe (data.take 8)
  if data.length < 8 + plen then .panicked
  else
    let path := (data.drop 8).take plen
    if ¬ validUtf8 path then .panicked
    else
      let e1 := 8 + plen
      if data.length < e1 + 4 then .panicked
      else
        let permissions := fromBe ((data.drop e1).take 4)
        let e2 := e1 + 4
        if data.length < e2 + 16 then .panicked
        else
          let modified := fromBe ((data.drop e2).take 16)
          if data.length < e2 + 32 then .panicked
          else
            let created := fromBe ((data.drop (e2 + 16)).take 16)
            let e3 := e2 + 32
            if data.length < e3 + 32 then .panicked
            else
              match fileNameOf path with
              | none => .panicked
              | some nm =>
                .ok ⟨⟨path, (data.drop e3).take 32⟩, nm, permissions,
                  modified, created, parseChunks (data.drop (e3 + 32))⟩

/-- Rust `impl Argument for FileList`: `(len: u16 BE, FileId bytes)` per entry. -/
def fileListBin (l : List FileId) : List Nat :=
(l.map (fun f => beBytes 2 (FileId.to_bin f).length ++ FileId.to_bin f)).flatten

/-- The cursor loop of `FileList::from_bin`.  The overrun check returns an
error; the entry slice uses the absolute end `(size + 2)` (a u16 wrapping
add — correct only for the first entry), and an out-of-range slice panics. -/
def fileListLoop (data : List Nat) (cur : Nat) : DecodeResult (List FileId) :=
if _h : cur < data.length then
  if data.length < cur + 2 then .panicked
  else
    let size := fromBe ((data.drop cur).take 2)
    if data.length - (cur + 2) < size then .err
    else
      let endAbs := (size + 2) % 65536
      if cur + 2 ≤ endAbs ∧ endAbs ≤ data.length then
        match FileId.from_bin ((data.drop (cur + 2)).take (endAbs - (cur + 2)))
        with
        | .err => .err
        | .panicked => .panicked
        | .ok fid =>
          match fileListLoop data (cur + 2 + size) with
          | .ok rest => .ok (fid :: rest)
          | .err => .err
          | .panicked => .panicked
      else .panicked
else .ok []
termination_by data.length - cur
decreasing_by
  omega

/-- Rust `FileList::from_bin`. -/
def fileListFromBin (data : List Nat) : DecodeResult (List FileId) :=
fileListLoop data 0

/-- Rust `impl Argument for Chunk`: 32 id bytes then the data. -/
def Chunk.to_bin (c : Chunk) : List Nat := c.id ++ c.data

/-- Rust `Chunk::from_bin`: `data[..32]` panics when shorter. -/
def Chunk.from_bin (data : List Nat) : DecodeResult Chunk :=
if data.length < 32 then .panicked
else .ok ⟨data.take 32, data.drop 32⟩

/-- Rust `ResponseCode::from_bin`: `copy_from_slice` needs exactly 2 bytes. -/
def responseCodeFromBin (data : List Nat) : DecodeResult Nat :=
if data.length = 2 then .ok (fromBe data) else .panicked

/-- Rust `Version::from_bin`: `ver[0]` panics on an empty buffer. -/
def versionFromBin (data : List Nat) : DecodeResult Nat :=
match data with
| [] => .panicked
| b :: _ => .ok b

/-- The protocol verbs (`enum Directive`). -/
inductive Directive
| AnnounceVersion
| ListFiles
| SendFiles
| RequestFile
| RequestChunk
| SendFile
| SendChunk
| DeleteFile
| Response
deriving DecidableEq

/-- Rust `msg.verb as u16`. -/
def Directive.code : Directive → Nat
| .AnnounceVersion => 0
| .ListFiles => 1
| .SendFiles => 2
| .RequestFile => 3
| .RequestChunk => 4
| .SendFile => 5
| .SendChunk => 6
| .DeleteFile => 7
| .Response => 8

/-- Rust `TryFrom<u16> for Directive` (`None` = the `Err` that
`RawMessage::from` turns into a panic). -/
def directiveOfCode : Nat → Option Directive
| 0 => some .AnnounceVersion
| 1 => some .ListFiles
| 2 => some .SendFiles
| 3 => some .RequestFile
| 4 => some .RequestChunk
| 5 => some .SendFile
| 6 => some .SendChunk
| 7 => some .DeleteFile
| 8 => some .Response
| _ => none

/-- The tagged argument a decoded message carries (`Box<dyn Argument>`
downcast to the verb's type). -/
inductive ArgValue
| version (v : Nat)
| fileId (f : FileId)
| qualifiedChunkId (q : QualifiedChunkId)
| fileMetadata (m : FileMetadata)
| fileList (l : List FileId)
| chunk (c : Chunk)
| responseCode (r : Nat)
deriving DecidableEq

/-- Rust `Argument::to_bin` of each variant. -/
def ArgValue.to_bin : ArgValue → List Nat
| .version v => beBytes 1 v
| .fileId f => f.to_bin
| .qualifiedChunkId q => q.to_bin
| .fileMetadata m => m.to_bin
| .fileList l => fileListBin l
| .chunk c => c.to_bin
| .responseCode r => beBytes 2 r

/-- A decoded protocol message. -/
structure Message where
  id : Nat
  verb : Directive
  argument : Option ArgValue
deriving DecidableEq

/-- Rust `MessageBuilder::encode_message`: `msg_id` (u16 BE), verb code (u16 BE),
then the encoded argument bytes (empty when the argument is `None`). -/
def encode_message (current_request : Nat) (verb : Directive)
    (argument : Option ArgValue) : List Nat :=
beBytes 2 current_request ++ (beBytes 2 verb.code ++
  (argument.map ArgValue.to_bin).getD [])

/-- Rust `MessageBuilder::decode_message` (with `RawMessage::from` inlined): a
frame shorter than 4 bytes or with an unknown verb code panics; frames of
length ≤ 4 carry no data; otherwise the verb picks the argument decoder. -/
def decode_message (message : List Nat) : DecodeResult Message :=
if message.length < 4 then .panicked
else
  let mid := fromBe (message.take 2)
  match directiveOfCode (fromBe ((message.drop 2).take 2)) with
  | none => .panicked
  | some verb =>
    if message.length ≤ 4 then .ok ⟨mid, verb, none⟩
    else
      let x := message.drop 4
      match verb with
      | .AnnounceVersion =>
        (versionFromBin x).map (fun v => ⟨mid, verb, some (.version v)⟩)
      | .ListFiles => .ok ⟨mid, verb, none⟩
      | .SendFiles =>
        (fileListFromBin x).map (fun l => ⟨mid, verb, some (.fileList l)⟩)
      | .RequestFile =>
        (FileId.from_bin x).map (fun f => ⟨mid, verb, some (.fileId f)⟩)
      | .RequestChunk =>
        (QualifiedChunkId.from_bin x).map
          (fun q => ⟨mid, verb, some (.qualifiedChunkId q)⟩)
      | .SendFile =>
        (FileMetadata.from_bin x).map
          (fun fm => ⟨mid, verb, some (.fileMetadata fm)⟩)
      | .SendChunk =>
        (Chunk.from_bin x).map (fun c => ⟨mid, verb, some (.chunk c)⟩)
      | .DeleteFile =>
        (FileId.from_bin x).map (fun f => ⟨mid, verb, some (.fileId f)⟩)
      | .Response =>
        (responseCodeFromBin x).map
          (fun r => ⟨mid, verb, some (.responseCode r)⟩)

/-! ## Codec round-trip lemmas -/

theorem take_app_of_eq {l1 l2 : List Nat} {k : Nat} (h : k = l1.length) :
    (l1 ++ l2).take k = l1 := by
subst h
exact List.take_left l1 l2

theorem drop_app_of_eq {l1 l2 : List Nat} {k : Nat} (h : k = l1.length) :
    (l1 ++ l2).drop k = l2 := by
subst h
exact List.drop_left l1 l2

theorem drop_app_add {l1 l2 : List Nat} {k : Nat} (h : k = l1.length)
    (j : Nat) : (l1 ++ l2).drop (k + j) = l2.drop j := by
have h1 : ((l1 ++ l2).drop k).drop j = (l1 ++ l2).drop (k + j) := by
  rw [List.drop_drop, Nat.add_comm]
rw [← h1, drop_app_of_eq h]

theorem version_rt {v : Nat} (h : v < 256) :
    versionFromBin (beBytes 1 v) = .ok v := by
show versionFromBin (beBytes 0 (v / 256) ++ [v % 256]) = .ok v
rw [show beBytes 0 (v / 256) = [] from rfl]
show DecodeResult.ok (v % 256) = .ok v
rw [Nat.mod_eq_of_lt h]

theorem response_rt {r : Nat} (h : r < 65536) :
    responseCodeFromBin (beBytes 2 r) = .ok r := by
unfold responseCodeFromBin
rw [if_pos (beBytes_length 2 r), fromBe_beBytes_of_lt (by simpa using h)]

theorem fileId_rt (f : FileId) (h32 : f.hash.length = 32)
    (hu : validUtf8 f.path = true) :
    FileId.from_bin (FileId.to_bin f) = .ok f := by
unfold FileId.from_bin FileId.to_bin
have hlen : (f.path ++ f.hash).length = f.path.length + 32 := by
  simp [h32]
have hsub : (f.path ++ f.hash).length - 32 = f.path.length := by omega
rw [hsub, take_app_of_eq rfl, drop_app_of_eq rfl]
rw [if_neg (by omega), if_pos hu]

theorem chunk_rt (c : Chunk) (h : c.id.length = 32) :
    Chunk.from_bin (Chunk.to_bin c) = .ok c := by
unfold Chunk.from_bin Chunk.to_bin
have hlen : (c.id ++ c.data).length = 32 + c.data.length := by
  simp [h]
rw [if_neg (by omega), take_app_of_eq h.symm, drop_app_of_eq h.symm]

theorem qcid_rt (q : QualifiedChunkId) (h32 : q.path.hash.length = 32)
    (hu : validUtf8 q.path.path = true)
    (hbl : (FileId.to_bin q.path).length < 2 ^ 32)
    (hoff : q.offset < 2 ^ 32) :
    QualifiedChunkId.from_bin (QualifiedChunkId.to_bin q) = .ok q := by
simp only [QualifiedChunkId.from_bin, QualifiedChunkId.to_bin]
have hfour : (4 : Nat) = (beBytes 4 (FileId.to_bin q.path).length).length :=
  (beBytes_length _ _).symm
have hsz : fromBe ((beBytes 4 (FileId.to_bin q.path).length ++
    (FileId.to_bin q.path ++ (beBytes 4 q.offset ++ q.id))).take 4) =
    (FileId.to_bin q.path).length := by
  rw [take_app_of_eq hfour, fromBe_beBytes_of_lt (by simpa using hbl)]
have hlen : (beBytes 4 (FileId.to_bin q.path).length ++
    (FileId.to_bin q.path ++ (beBytes 4 q.offset ++ q.id))).length =
    4 + ((FileId.to_bin q.path).length + (4 + q.id.length)) := by
  simp [beBytes_length]
have htake : ((beBytes 4 (FileId.to_bin q.path).length ++
    (FileId.to_bin q.path ++ (beBytes 4 q.offset ++ q.id))).drop 4).take
      ((FileId.to_bin q.path).length) = FileId.to_bin q.path := by
  rw [drop_app_of_eq hfour]
  exact take_app_of_eq rfl
have hd1 : ((beBytes 4 (FileId.to_bin q.path).length ++
    (FileId.to_bin q.path ++ (beBytes 4 q.offset ++ q.id))).drop
      (4 + (FileId.to_bin q.path).length)).take 4 =
    beBytes 4 q.offset := by
  rw [drop_app_add hfour, drop_app_of_eq rfl]
  exact take_app_of_eq ((beBytes_length _ _).symm)
have hd2 : (beBytes 4 (FileId.to_bin q.path).length ++
    (FileId.to_bin q.path ++ (beBytes 4 q.offset ++ q.id))).drop
      (8 + (FileId.to_bin q.path).length) =
    q.id := by
  have h8 : 8 + (FileId.to_bin q.path).length =
      4 + ((FileId.to_bin q.path).length + 4) := by omega
  rw [h8, drop_app_add hfour, drop_app_add rfl]
  exact drop_app_of_eq ((beBytes_length _ _).symm)
simp only [hsz, hlen, htake, hd1, hd2, fileId_rt q.path h32 hu,
  fromBe_beBytes_of_lt (show q.offset < 256 ^ 4 by simpa using hoff)]
rw [if_neg (by omega), if_neg (by omega), if_neg (by omega)]

theorem drop_concat {l1 l2 : List Nat} {n k : Nat}
    (h : n = l1.length + k) : (l1 ++ l2).drop n = l2.drop k := by
rw [h]
exact drop_app_add rfl k

/-- Reassembling a flattened sequence of 32-byte chunk ids recovers it. -/
theorem parseChunks_flatten (cs : List (List Nat))
    (h : ∀ c ∈ cs, c.length = 32) : parseChunks cs.flatten = cs := by
induction cs with
| nil =>
  rw [List.flatten_nil]
  unfold parseChunks
  simp
| cons c rest ih =>
  have hc : c.length = 32 := h c (List.mem_cons_self c rest)
  rw [List.flatten_cons]
  unfold parseChunks
  have hlen : (c ++ rest.flatten).length = 32 + rest.flatten.length := by
    simp [hc]
  rw [if_neg (by omega), if_neg (by omega), take_app_of_eq hc.symm,
    drop_app_of_eq hc.symm, ih (fun d hm => h d (List.mem_cons_of_mem c hm))]

theorem meta_rt (m : FileMetadata) (h32 : m.file_id.hash.length = 32)
    (hu : validUtf8 m.file_id.path = true)
    (hfn : fileNameOf m.file_id.path = some m.file_name)
    (hch : ∀ c ∈ m.chunks, c.length = 32)
    (hpe : m.permissions < 2 ^ 32) (hmo : m.modified < 2 ^ 128)
    (hcr : m.created < 2 ^ 128) (hp64 : m.file_id.path.length < 2 ^ 64) :
    FileMetadata.from_bin (FileMetadata.to_bin m) = .ok m := by
simp only [FileMetadata.from_bin, FileMetadata.to_bin]
have h8 : (8 : Nat) = (beBytes 8 m.file_id.path.length).length :=
  (beBytes_length _ _).symm
set P := m.file_id.path with hP
set L := m.file_id.path.length with hL
set R2 : List Nat := beBytes 4 m.permissions ++ (beBytes 16 m.modified ++
  (beBytes 16 m.created ++ (m.file_id.hash ++ m.chunks.flatten))) with hR2
set bin : List Nat := beBytes 8 L ++ (P ++ R2) with hbin
have hplen : fromBe (bin.take 8) = L := by
  rw [hbin, take_app_of_eq h8, fromBe_beBytes_of_lt (by simpa using hp64)]
have hpath : (bin.drop 8).take L = P := by
  rw [hbin, drop_app_of_eq h8]
  exact take_app_of_eq rfl
have hlen : bin.length = 8 + (L + (4 + (16 + (16 +
    (32 + m.chunks.flatten.length))))) := by
  rw [hbin, hR2]
  simp [beBytes_length, h32, hL]
have hdPerm : (bin.drop (8 + L)).take 4 = beBytes 4 m.permissions := by
  rw [hbin, drop_concat (by rw [← h8] : 8 + L = (beBytes 8 L).length + L),
    drop_app_of_eq rfl, hR2]
  exact take_app_of_eq ((beBytes_length _ _).symm)
have hdMod : (bin.drop (8 + L + 4)).take 16 = beBytes 16 m.modified := by
  rw [hbin, drop_concat (show 8 + L + 4 = (beBytes 8 L).length + (L + 4)
      by rw [← h8]; omega),
    drop_concat (show L + 4 = P.length + 4 by rw [hP, ← hL]), hR2,
    drop_app_of_eq ((beBytes_length _ _).symm)]
  exact take_app_of_eq ((beBytes_length _ _).symm)
have hdCre : (bin.drop (8 + L + 4 + 16)).take 16 = beBytes 16 m.created := by
  rw [hbin, drop_concat (show 8 + L + 4 + 16 = (beBytes 8 L).length +
      (L + 20) by rw [← h8]; omega),
    drop_concat (show L + 20 = P.length + 20 by rw [hP, ← hL]), hR2,
    drop_concat (show (20 : Nat) = (beBytes 4 m.permissions).length + 16
      by rw [beBytes_length]),
    drop_app_of_eq ((beBytes_length _ _).symm)]
  exact take_app_of_eq ((beBytes_length _ _).symm)
have hdHash : (bin.drop (8 + L + 4 + 32)).take 32 = m.file_id.hash := by
  rw [hbin, drop_concat (show 8 + L + 4 + 32 = (beBytes 8 L).length +
      (L + 36) by rw [← h8]; omega),
    drop_concat (show L + 36 = P.length + 36 by rw [hP, ← hL]), hR2,
    drop_concat (show (36 : Nat) = (beBytes 4 m.permissions).length + 32
      by rw [beBytes_length]),
    drop_concat (show (32 : Nat) = (beBytes 16 m.modified).length + 16
      by rw [beBytes_length]),
    drop_app_of_eq ((beBytes_length _ _).symm)]
  exact take_app_of_eq h32.symm
have hdChunks : bin.drop (8 + L + 4 + 32 + 32) = m.chunks.flatten := by
  rw [hbin, drop_concat (show 8 + L + 4 + 32 + 32 = (beBytes 8 L).length +
      (L + 68) by rw [← h8]; omega),
    drop_concat (show L + 68 = P.length + 68 by rw [hP, ← hL]), hR2,
    drop_concat (show (68 : Nat) = (beBytes 4 m.permissions).length + 64
      by rw [beBytes_length]),
    drop_concat (show (64 : Nat) = (beBytes 16 m.modified).length + 48
      by rw [beBytes_length]),
    drop_concat (show (48 : Nat) = (beBytes 16 m.created).length + 32
      by rw [beBytes_length]),
    drop_concat (show (32 : Nat) = m.file_id.hash.length + 0 by omega),
    List.drop_zero]
simp only [hplen, hpath, hdPerm, hdMod, hdCre, hdHash, hdChunks, hu, hfn,
  fromBe_beBytes_of_lt (show m.permissions < 256 ^ 4 by simpa using hpe),
  fromBe_beBytes_of_lt (show m.modified < 256 ^ 16 by simpa using hmo),
  fromBe_beBytes_of_lt (show m.created < 256 ^ 16 by simpa using hcr),
  parseChunks_flatten m.chunks hch, hlen, not_true, if_false,
  Bool.true_eq_false, not_false_iff, if_true]
rw [if_neg (by omega), if_neg (by omega), if_neg (by omega),
  if_neg (by omega), if_neg (by omega), if_neg (by omega)]

theorem flist_rt_one (f : FileId) (h32 : f.hash.length = 32)
    (hu : validUtf8 f.path = true)
    (hsz : (FileId.to_bin f).length + 2 < 65536) :
    fileListFromBin (fileListBin [f]) = .ok [f] := by
unfold fileListFromBin
set n := (FileId.to_bin f).length with hn
have hbin : fileListBin [f] = beBytes 2 n ++ FileId.to_bin f := by
  simp [fileListBin]
have hlen : (fileListBin [f]).length = 2 + n := by
  rw [hbin]
  simp [beBytes_length]
have hsize : fromBe (((fileListBin [f]).drop 0).take 2) = n := by
  rw [List.drop_zero, hbin, take_app_of_eq ((beBytes_length 2 n).symm),
    fromBe_beBytes_of_lt (show n < 256 ^ 2 by simpa using
      (by omega : n < 65536))]
have hmod : (n + 2) % 65536 = n + 2 := Nat.mod_eq_of_lt (by omega)
have hseg : ((fileListBin [f]).drop (0 + 2)).take (n + 2 - (0 + 2)) =
    FileId.to_bin f := by
  rw [hbin, drop_app_of_eq ((beBytes_length 2 n).symm)]
  have h2 : n + 2 - (0 + 2) = n := by omega
  rw [h2, hn]
  exact List.take_length (FileId.to_bin f)
have hrec : fileListLoop (fileListBin [f]) (0 + 2 + n) = .ok [] := by
  unfold fileListLoop
  rw [dif_neg (by omega)]
unfold fileListLoop
rw [dif_pos (by omega : 0 < (fileListBin [f]).length)]
simp only [hsize, hmod, hseg, hrec, fileId_rt f h32 hu, hlen]
rw [if_neg (by omega), if_neg (by omega), if_pos (by omega)]

theorem directiveOfCode_code (d : Directive) :
    directiveOfCode d.code = some d := by
cases d <;> rfl

theorem code_lt (d : Directive) : d.code < 65536 := by
cases d <;> decide

/-- Decoding a well-framed message with a non-empty argument section picks
the verb's argument decoder. -/
theorem decode_frame (mid : Nat) (hid : mid < 65536) (verb : Directive)
    (A : List Nat) (hA : A ≠ []) :
    decode_message (beBytes 2 mid ++ (beBytes 2 verb.code ++ A)) =
      match verb with
      | .AnnounceVersion => (versionFromBin A).map
          (fun v => ⟨mid, .AnnounceVersion, some (.version v)⟩)
      | .ListFiles => .ok ⟨mid, .ListFiles, none⟩
      | .SendFiles => (fileListFromBin A).map
          (fun l => ⟨mid, .SendFiles, some (.fileList l)⟩)
      | .RequestFile => (FileId.from_bin A).map
          (fun f => ⟨mid, .RequestFile, some (.fileId f)⟩)
      | .RequestChunk => (QualifiedChunkId.from_bin A).map
          (fun q => ⟨mid, .RequestChunk, some (.qualifiedChunkId q)⟩)
      | .SendFile => (FileMetadata.from_bin A).map
          (fun fm => ⟨mid, .SendFile, some (.fileMetadata fm)⟩)
      | .SendChunk => (Chunk.from_bin A).map
          (fun c => ⟨mid, .SendChunk, some (.chunk c)⟩)
      | .DeleteFile => (FileId.from_bin A).map
          (fun f => ⟨mid, .DeleteFile, some (.fileId f)⟩)
      | .Response => (responseCodeFromBin A).map
          (fun r => ⟨mid, .Response, some (.responseCode r)⟩) := by
have h2 : (2 : Nat) = (beBytes 2 mid).length := (beBytes_length _ _).symm
have hml : (beBytes 2 mid ++ (beBytes 2 verb.code ++ A)).length =
    4 + A.length := by
  simp [beBytes_length]
  omega
have hmid : fromBe ((beBytes 2 mid ++ (beBytes 2 verb.code ++ A)).take 2) =
    mid := by
  rw [take_app_of_eq h2, fromBe_beBytes_of_lt (by simpa using hid)]
have hcode : fromBe (((beBytes 2 mid ++
    (beBytes 2 verb.code ++ A)).drop 2).take 2) = verb.code := by
  rw [drop_app_of_eq h2, take_app_of_eq ((beBytes_length _ _).symm),
    fromBe_beBytes_of_lt (by simpa using code_lt verb)]
have hdrop4 : (beBytes 2 mid ++ (beBytes 2 verb.code ++ A)).drop 4 = A := by
  rw [drop_concat (show (4 : Nat) = (beBytes 2 mid).length + 2
    by rw [← h2])]
  exact drop_app_of_eq ((beBytes_length _ _).symm)
have hAlen : A.length ≠ 0 := fun h => hA (List.length_eq_zero.mp h)
unfold decode_message
simp only [hmid, hcode, directiveOfCode_code, hdrop4, hml]
rw [if_neg (by omega), if_neg (by omega)]
cases verb <;> rfl

/-- Decoding a 4-byte frame (no argument bytes) yields argument `none`. -/
theorem decode_frame_none (mid : Nat) (hid : mid < 65536)
    (verb : Directive) :
    decode_message (beBytes 2 mid ++ (beBytes 2 verb.code ++ [])) =
      .ok ⟨mid, verb, none⟩ := by
have h2 : (2 : Nat) = (beBytes 2 mid).length := (beBytes_length _ _).symm
have hml : (beBytes 2 mid ++ (beBytes 2 verb.code ++ [])).length = 4 := by
  simp [beBytes_length]
have hmid : fromBe ((beBytes 2 mid ++ (beBytes 2 verb.code ++ [])).take 2) =
    mid := by
  rw [take_app_of_eq h2, fromBe_beBytes_of_lt (by simpa using hid)]
have hcode : fromBe (((beBytes 2 mid ++
    (beBytes 2 verb.code ++ [])).drop 2).take 2) = verb.code := by
  rw [drop_app_of_eq h2, take_app_of_eq ((beBytes_length _ _).symm),
    fromBe_beBytes_of_lt (by simpa using code_lt verb)]
unfold decode_message
simp only [hmid, hcode, directiveOfCode_code, hml]
rw [if_neg (by omega), if_pos (by omega)]

/-! ## Well-formed messages (claim C7) -/

/-- A `FileId` as the Rust code can produce it: 32 hash bytes and a path
whose bytes are a valid UTF-8 string (`PathBuf::to_str().unwrap()`). -/
def wfFileId (f : FileId) : Prop :=
f.hash.length = 32 ∧ validUtf8 f.path = true

/-- A `FileMetadata` as `FileMetadata::new` produces it: 32-byte hash and
chunk ids, valid UTF-8 path with the display name its final component, and
fields within their Rust integer ranges. -/
def wfMeta (m : FileMetadata) : Prop :=
m.file_id.hash.length = 32 ∧ validUtf8 m.file_id.path = true ∧
fileNameOf m.file_id.path = some m.file_name ∧
(∀ c ∈ m.chunks, c.length = 32) ∧ m.permissions < 2 ^ 32 ∧
m.modified < 2 ^ 128 ∧ m.created < 2 ^ 128 ∧
m.file_id.path.length < 2 ^ 64

/-- The argument value each directive carries (the table of §4.1), with the
per-type validity conditions. -/
def wfArg : Directive → Option ArgValue → Prop
| .AnnounceVersion, some (.version v) => v < 256
| .ListFiles, none => True
| .SendFiles, some (.fileList l) =>
  ∀ f ∈ l, wfFileId f ∧ (FileId.to_bin f).length + 2 < 65536
| .RequestFile, some (.fileId f) => wfFileId f
| .RequestChunk, some (.qualifiedChunkId q) =>
  wfFileId q.path ∧ (FileId.to_bin q.path).length < 2 ^ 32 ∧
    q.offset < 2 ^ 32
| .SendFile, some (.fileMetadata fm) => wfMeta fm
| .SendChunk, some (.chunk c) => c.id.length = 32
| .DeleteFile, some (.fileId f) => wfFileId f
| .Response, some (.responseCode r) => r < 65536
| _, _ => False

/-- A well-formed `Message`: u16 id and a valid argument of the verb's
type. -/
def wfMsg (m : Message) : Prop := m.id < 65536 ∧ wfArg m.verb m.argument

theorem encode_some (mid : Nat) (verb : Directive) (a : ArgValue) :
    encode_message mid verb (some a) =
      beBytes 2 mid ++ (beBytes 2 verb.code ++ a.to_bin) := by
simp [encode_message]

theorem encode_none (mid : Nat) (verb : Directive) :
    encode_message mid verb none =
      beBytes 2 mid ++ (beBytes 2 verb.code ++ []) := by
simp [encode_message]

theorem ne_nil_len {l : List Nat} (h : l.length ≠ 0) : l ≠ [] :=
fun he => h (by rw [he]; rfl)

/-- C7 (codec round-trip, amended): for every well-formed message whose
`FileList` argument (when present) has exactly one entry, decoding the
encoded frame recovers the message exactly — id, verb and argument. -/
theorem C7_codec_roundtrip (m : Message) (hwf : wfMsg m)
    (hfl : ∀ l, m.argument = some (ArgValue.fileList l) → l.length = 1) :
    decode_message (encode_message m.id m.verb m.argument) = .ok m := by
obtain ⟨hid, harg⟩ := hwf
rcases m with ⟨mid, verb, arg⟩
simp only [wfMsg] at hid harg
cases verb with
| AnnounceVersion =>
  rcases arg with _ | av
  · exact harg.elim
  · rcases av with v | f | q | fm | l | c | r <;> try exact harg.elim
    rw [encode_some, decode_frame mid hid _ _
      (ne_nil_len (by simp [ArgValue.to_bin, beBytes_length]))]
    show (versionFromBin (ArgValue.to_bin (ArgValue.version v))).map
      (fun w => (⟨mid, Directive.AnnounceVersion, some (.version w)⟩ :
        Message)) = _
    rw [show ArgValue.to_bin (ArgValue.version v) = beBytes 1 v from rfl,
      version_rt harg]
    rfl
| ListFiles =>
  rcases arg with _ | av
  · rw [encode_none]
    exact decode_frame_none mid hid _
  · rcases av with v | f | q | fm | l | c | r <;> exact harg.elim
| SendFiles =>
  rcases arg with _ | av
  · exact harg.elim
  · rcases av with v | f | q | fm | l | c | r <;> try exact harg.elim
    have hlen1 : l.length = 1 := hfl l rfl
    rcases l with _ | ⟨f, rest⟩
    · simp at hlen1
    · rcases rest with _ | ⟨g, r2⟩
      · obtain ⟨⟨h32, hu⟩, hsz⟩ := harg f (List.mem_singleton.mpr rfl)
        rw [encode_some, decode_frame mid hid _ _
          (ne_nil_len (by simp [ArgValue.to_bin, fileListBin,
            beBytes_length]))]
        show (fileListFromBin (ArgValue.to_bin (ArgValue.fileList [f]))).map
          (fun w => (⟨mid, Directive.SendFiles, some (.fileList w)⟩ :
            Message)) = _
        rw [show ArgValue.to_bin (ArgValue.fileList [f]) = fileListBin [f]
          from rfl, flist_rt_one f h32 hu hsz]
        rfl
      · simp at hlen1
| RequestFile =>
  rcases arg with _ | av
  · exact harg.elim
  · rcases av with v | f | q | fm | l | c | r <;> try exact harg.elim
    obtain ⟨h32, hu⟩ := harg
    rw [encode_some, decode_frame mid hid _ _
      (ne_nil_len (by simp [ArgValue.to_bin, FileId.to_bin, h32]))]
    show (FileId.from_bin (ArgValue.to_bin (ArgValue.fileId f))).map
      (fun w => (⟨mid, Directive.RequestFile, some (.fileId w)⟩ :
        Message)) = _
    rw [show ArgValue.to_bin (ArgValue.fileId f) = FileId.to_bin f from rfl,
      fileId_rt f h32 hu]
    rfl
| RequestChunk =>
  rcases arg with _ | av
  · exact harg.elim
  · rcases av with v | f | q | fm | l | c | r <;> try exact harg.elim
    obtain ⟨⟨h32, hu⟩, hbl, hoff⟩ := harg
    rw [encode_some, decode_frame mid hid _ _
      (ne_nil_len (by simp [ArgValue.to_bin, QualifiedChunkId.to_bin,
        beBytes_length]))]
    show (QualifiedChunkId.from_bin
        (ArgValue.to_bin (ArgValue.qualifiedChunkId q))).map
      (fun w => (⟨mid, Directive.RequestChunk, some (.qualifiedChunkId w)⟩ :
        Message)) = _
    rw [show ArgValue.to_bin (ArgValue.qualifiedChunkId q) =
      QualifiedChunkId.to_bin q from rfl, qcid_rt q h32 hu hbl hoff]
    rfl
| SendFile =>
  rcases arg with _ | av
  · exact harg.elim
  · rcases av with v | f | q | fm | l | c | r <;> try exact harg.elim
    obtain ⟨h32, hu, hfn, hch, hpe, hmo, hcr, hp64⟩ := harg
    rw [encode_some, decode_frame mid hid _ _
      (ne_nil_len (by simp [ArgValue.to_bin, FileMetadata.to_bin,
        beBytes_length]))]
    show (FileMetadata.from_bin
        (ArgValue.to_bin (ArgValue.fileMetadata fm))).map
      (fun w => (⟨mid, Directive.SendFile, some (.fileMetadata w)⟩ :
        Message)) = _
    rw [show ArgValue.to_bin (ArgValue.fileMetadata fm) =
      FileMetadata.to_bin fm from rfl,
      meta_rt fm h32 hu hfn hch hpe hmo hcr hp64]
    rfl
| SendChunk =>
  rcases arg with _ | av
  · exact harg.elim
  · rcases av with v | f | q | fm | l | c | r <;> try exact harg.elim
    have h32 : c.id.length = 32 := harg
    rw [encode_some, decode_frame mid hid _ _
      (ne_nil_len (by simp [ArgValue.to_bin, Chunk.to_bin, h32]))]
    show (Chunk.from_bin (ArgValue.to_bin (ArgValue.chunk c))).map
      (fun w => (⟨mid, Directive.SendChunk, some (.chunk w)⟩ :
        Message)) = _
    rw [show ArgValue.to_bin (ArgValue.chunk c) = Chunk.to_bin c from rfl,
      chunk_rt c harg]
    rfl
| DeleteFile =>
  rcases arg with _ | av
  · exact harg.elim
  · rcases av with v | f | q | fm | l | c | r <;> try exact harg.elim
    obtain ⟨h32, hu⟩ := harg
    rw [encode_some, decode_frame mid hid _ _
      (ne_nil_len (by simp [ArgValue.to_bin, FileId.to_bin, h32]))]
    show (FileId.from_bin (ArgValue.to_bin (ArgValue.fileId f))).map
      (fun w => (⟨mid, Directive.DeleteFile, some (.fileId w)⟩ :
        Message)) = _
    rw [show ArgValue.to_bin (ArgValue.fileId f) = FileId.to_bin f from rfl,
      fileId_rt f h32 hu]
    rfl
| Response =>
  rcases arg with _ | av
  · exact harg.elim
  · rcases av with v | f | q | fm | l | c | r <;> try exact harg.elim
    rw [encode_some, decode_frame mid hid _ _
      (ne_nil_len (by simp [ArgValue.to_bin, beBytes_length]))]
    show (responseCodeFromBin (ArgValue.to_bin (ArgValue.responseCode r))).map
      (fun w => (⟨mid, Directive.Response, some (.responseCode w)⟩ :
        Message)) = _
    rw [show ArgValue.to_bin (ArgValue.responseCode r) = beBytes 2 r
      from rfl, response_rt harg]
    rfl

/-- C8 (decoder totality, amended): decoding panics — it does not return an
error value — on frames shorter than the 4-byte header and on frames with
an unknown verb code; the explicitly checked case (a `RequestFile` /
`DeleteFile` frame whose `FileId` argument is shorter than 32 bytes)
returns an error instead. -/
theorem C8_decoder_totality :
    (∀ msg : List Nat, msg.length < 4 →
      decode_message msg = .panicked) ∧
    (∀ msg : List Nat, 4 ≤ msg.length →
      directiveOfCode (fromBe ((msg.drop 2).take 2)) = none →
      decode_message msg = .panicked) ∧
    (∀ msg : List Nat, 4 < msg.length → msg.length < 36 →
      (fromBe ((msg.drop 2).take 2) = 3 ∨
        fromBe ((msg.drop 2).take 2) = 7) →
      decode_message msg = .err) := by
refine ⟨?_, ?_, ?_⟩
· intro msg h
  unfold decode_message
  rw [if_pos h]
· intro msg h hdir
  unfold decode_message
  rw [if_neg (by omega)]
  simp only [hdir]
· intro msg h4 h36 hverb
  unfold decode_message
  rw [if_neg (by omega)]
  have hfb : FileId.from_bin (msg.drop 4) = .err := by
    unfold FileId.from_bin
    rw [if_pos (by rw [List.length_drop]; omega)]
  rcases hverb with hv | hv
  · simp only [hv,
      show directiveOfCode 3 = some Directive.RequestFile from rfl]
    rw [if_neg (by omega)]
    simp only [hfb]
    rfl
  · simp only [hv,
      show directiveOfCode 7 = some Directive.DeleteFile from rfl]
    rw [if_neg (by omega)]
    simp only [hfb]
    rfl

/-- C8 witness: the amended statement at concrete frames — a 1-byte frame
and an unknown-verb frame panic; a `RequestFile` frame with a 2-byte
argument returns an error. -/
theorem C8_decoder_totality_witness :
    decode_message [7] = DecodeResult.panicked ∧
    decode_message [0, 1, 0, 9] = DecodeResult.panicked ∧
    decode_message [0, 0, 0, 3, 9, 9] = DecodeResult.err :=
⟨C8_decoder_totality.1 [7] (by decide),
 C8_decoder_totality.2.1 [0, 1, 0, 9] (by decide) (by decide),
 C8_decoder_totality.2.2 [0, 0, 0, 3, 9, 9] (by decide) (by decide)
   (Or.inl (by decide))⟩

/-- C8 as stated is false: the empty frame, a 4-byte frame with verb code
9, and a SendFile frame truncated inside its argument all panic (slice
indexing / `unwrap` / explicit `panic!`) instead of returning an error. -/
theorem C8_decoder_totality_cex :
    decode_message [] = DecodeResult.panicked ∧
    decode_message [0, 0, 0, 9] = DecodeResult.panicked ∧
    decode_message [0, 0, 0, 5, 1] = DecodeResult.panicked := by
refine ⟨?_, ?_, ?_⟩ <;> decide

/-- C7 as stated is false: the well-formed message `SendFiles(FileList [])`
encodes to a 4-byte frame, so decoding returns argument `none` — the
argument is lost (a two-entry `FileList` likewise fails round-trip: its
decoder panics, the entry slice using the absolute offset `size + 2` that
is correct only for the first entry). -/
theorem C7_codec_roundtrip_cex :
    wfMsg ⟨0, Directive.SendFiles, some (ArgValue.fileList [])⟩ ∧
    decode_message (encode_message 0 Directive.SendFiles
      (some (ArgValue.fileList []))) =
      .ok ⟨0, Directive.SendFiles, none⟩ ∧
    (⟨0, Directive.SendFiles, none⟩ : Message) ≠
      ⟨0, Directive.SendFiles, some (ArgValue.fileList [])⟩ := by
refine ⟨⟨by decide, fun f hf => absurd hf (List.not_mem_nil f)⟩,
  by decide, by decide⟩

/-- C7 witness: the amended round-trip applied to a concrete `SendFile`
message with a two-chunk metadata. -/
theorem C7_codec_roundtrip_witness :
    decode_message (encode_message 9 Directive.SendFile
      (some (ArgValue.fileMetadata metaA77))) =
      .ok ⟨9, Directive.SendFile, some (ArgValue.fileMetadata metaA77)⟩ := by
refine C7_codec_roundtrip ⟨9, Directive.SendFile,
    some (ArgValue.fileMetadata metaA77)⟩
  ⟨by decide, ?_⟩ (fun l hl => by cases hl)
show wfMeta metaA77
exact ⟨by decide, by decide, by decide, by decide, by decide, by decide,
  by decide, by decide⟩

end Phoenix
